import Mathlib

/-!
# Verification of the tab/session manager of `simple-monaco-editor`

This file gives a shallow embedding, in Lean 4, of the tab/session manager
implemented in `editor.js` (tab registry, buffer cache, save scheduler,
closed-tab history, activation controller), and proves or refutes the
frozen claims about it.

Conventions of the embedding:
* JS strings are Lean `String`s; tab ids (`crypto.randomUUID()` values) are
  modelled as `Nat`s drawn from a monotone counter `nextId`, which captures
  the assumption that generated ids never collide with live ids.
* `localStorage` keys `model:<id>` are modelled by an association list
  `store : List (Nat × String)`; `Map`s (`models`, `saveTimeouts`) are
  association lists with replacing insert, so keys stay unique.
* JS `undefined`/`null` is `Option.none`; the JS `x || d` idiom on strings
  (which also replaces the empty string) is `jsOr`; `x ?? d` is `Option.getD`.
* `Date.now()` is a clock field `now` of the state, unchanged by operations.
* Every `localStorage.setItem('model:<id>', v)` call is additionally logged
  in the ghost field `contentWriteLog`, so that temporal claims about "how
  many storage writes happened" are statable.
-/

namespace MonacoTabs

/-! ## Constants (editor.js lines 46-47, 62-63) -/

def DEFAULT_TAG_COLOR : String := "#8E8E93"

def TAG_COLORS : List String :=
  ["#FF3B30", "#FF9500", "#FFCC00", "#34C759", "#007AFF", "#AF52DE", "#8E8E93"]

def MAX_HISTORY : Nat := 20

/-! ## Character-level helpers

JS regexes and `.trim()` act on code points here (all relevant characters
are in the BMP and unpaired surrogates cannot occur in Lean `String`s).
-/

/-- The JS whitespace class: the characters matched by `\s` and removed by
`String.prototype.trim`. -/
def isJsWs (c : Char) : Bool :=
  let n := c.toNat
  n == 9 || n == 10 || n == 11 || n == 12 || n == 13 || n == 32 ||
  n == 0xA0 || n == 0x1680 || (0x2000 ≤ n && n ≤ 0x200A) ||
  n == 0x2028 || n == 0x2029 || n == 0x202F || n == 0x205F ||
  n == 0x3000 || n == 0xFEFF

/-- `String.prototype.trim` on a character list. -/
def jsTrimList (l : List Char) : List Char :=
  ((l.dropWhile isJsWs).reverse.dropWhile isJsWs).reverse

/-- The character class `[0-9a-fA-F]` (the regex in `normalizeColor` is
case-insensitive `[0-9a-f]`). -/
def isHexDigit (c : Char) : Bool :=
  (48 ≤ c.toNat && c.toNat ≤ 57) ||
  (97 ≤ c.toNat && c.toNat ≤ 102) ||
  (65 ≤ c.toNat && c.toNat ≤ 70)

/-- The test `/^#([0-9a-f]{3}|[0-9a-f]{6})$/i.test(hex)` (editor.js line 252). -/
def isHexColorList (l : List Char) : Bool :=
  match l with
  | c :: rest => c == '#' && (rest.length == 3 || rest.length == 6) && rest.all isHexDigit
  | [] => false

/-- `'#' + hex.slice(1).split('').map(c => c + c).join('')` (editor.js line 254). -/
def expandHex (l : List Char) : List Char :=
  '#' :: (l.drop 1).flatMap (fun c => [c, c])

/-- `normalizeColor` (editor.js lines 249-259), on string inputs.  JS
`toUpperCase` agrees with `Char.toUpper` on every character that can reach
the uppercase step (`#` and hex digits). -/
def normalizeColor (input : String) : String :=
  if isHexColorList (jsTrimList input.data) then
    ⟨((if (jsTrimList input.data).length == 4
        then expandHex (jsTrimList input.data)
        else jsTrimList input.data).map Char.toUpper)⟩
  else DEFAULT_TAG_COLOR

/-- `normalizeColor` as called on a possibly-`undefined` value: the
`typeof input !== 'string'` guard returns the fallback. -/
def normalizeColorOpt : Option String → String
  | some s => normalizeColor s
  | none => DEFAULT_TAG_COLOR

/-- An uppercase hex digit: a hex digit that is not a lowercase letter. -/
def isUpperHexDigit (c : Char) : Bool :=
  isHexDigit c && !(97 ≤ c.toNat && c.toNat ≤ 122)

/-- Recognizes `#` followed by exactly six uppercase hex digits: the shape
of every `normalizeColor` result on valid hex input. -/
def isUpperHex6 (s : String) : Bool :=
  match s.data with
  | c :: rest => c == '#' && rest.length == 6 && rest.all isUpperHexDigit
  | [] => false

/-! ### Facts about `Char.toUpper` on the reachable characters -/

theorem toNat_ofNat_valid {n : Nat} (h : n.isValidChar) :
    (Char.ofNat n).toNat = n := by
  simp only [Char.ofNat, h, dif_pos]
  rfl

theorem toUpper_toNat (c : Char) :
    (Char.toUpper c).toNat =
      if 97 ≤ c.toNat ∧ c.toNat ≤ 122 then c.toNat - 32 else c.toNat := by
  unfold Char.toUpper
  by_cases h : 97 ≤ c.toNat ∧ c.toNat ≤ 122
  · have hv : (c.toNat - 32).isValidChar := by
      left
      omega
    simp only [ge_iff_le, h.1, h.2, and_self, if_pos, if_true]
    exact toNat_ofNat_valid hv
  · rw [if_neg, if_neg h]
    exact h

theorem toUpper_eq_self_of_not_lower {c : Char}
    (h : ¬ (97 ≤ c.toNat ∧ c.toNat ≤ 122)) : Char.toUpper c = c := by
  unfold Char.toUpper
  rw [if_neg]
  exact h

theorem isJsWs_iff (c : Char) : isJsWs c = true ↔
    (c.toNat = 9 ∨ c.toNat = 10 ∨ c.toNat = 11 ∨ c.toNat = 12 ∨ c.toNat = 13 ∨
     c.toNat = 32 ∨ c.toNat = 0xA0 ∨ c.toNat = 0x1680 ∨
     (0x2000 ≤ c.toNat ∧ c.toNat ≤ 0x200A) ∨ c.toNat = 0x2028 ∨ c.toNat = 0x2029 ∨
     c.toNat = 0x202F ∨ c.toNat = 0x205F ∨ c.toNat = 0x3000 ∨ c.toNat = 0xFEFF) := by
  simp [isJsWs, or_assoc]

theorem hexDigit_toUpper {c : Char} (h : isHexDigit c = true) :
    isUpperHexDigit (Char.toUpper c) = true ∧
    Char.toUpper (Char.toUpper c) = Char.toUpper c ∧
    isJsWs (Char.toUpper c) = false := by
  simp only [isHexDigit, Bool.or_eq_true, Bool.and_eq_true, decide_eq_true_eq] at h
  have htu := toUpper_toNat c
  by_cases hl : 97 ≤ c.toNat ∧ c.toNat ≤ 122
  · rw [if_pos hl] at htu
    have hb : 65 ≤ (Char.toUpper c).toNat ∧ (Char.toUpper c).toNat ≤ 70 := by omega
    refine ⟨?_, ?_, ?_⟩
    · simp only [isUpperHexDigit, isHexDigit, Bool.or_eq_true, Bool.and_eq_true,
        Bool.not_eq_true', Bool.and_eq_false_iff, decide_eq_true_eq, decide_eq_false_iff_not]
      omega
    · exact toUpper_eq_self_of_not_lower (by omega)
    · refine Bool.eq_false_iff.mpr ?_
      rw [ne_eq, isJsWs_iff]
      omega
  · rw [if_neg hl] at htu
    have he : Char.toUpper c = c := toUpper_eq_self_of_not_lower hl
    refine ⟨?_, ?_, ?_⟩
    · rw [he]
      simp only [isUpperHexDigit, isHexDigit, Bool.or_eq_true, Bool.and_eq_true,
        Bool.not_eq_true', Bool.and_eq_false_iff, decide_eq_true_eq, decide_eq_false_iff_not]
      omega
    · rw [he, he]
    · rw [he]
      refine Bool.eq_false_iff.mpr ?_
      rw [ne_eq, isJsWs_iff]
      omega

theorem isHexDigit_not_ws {c : Char} (h : isHexDigit c = true) : isJsWs c = false := by
  simp only [isHexDigit, Bool.or_eq_true, Bool.and_eq_true, decide_eq_true_eq] at h
  refine Bool.eq_false_iff.mpr ?_
  rw [ne_eq, isJsWs_iff]
  omega

theorem hash_toUpper : Char.toUpper '#' = '#' :=
  toUpper_eq_self_of_not_lower (by decide)

theorem hash_not_ws : isJsWs '#' = false := by decide

theorem upperHexDigit_fixed {c : Char} (h : isUpperHexDigit c = true) :
    Char.toUpper c = c := by
  simp only [isUpperHexDigit, Bool.and_eq_true, Bool.not_eq_true',
    Bool.and_eq_false_iff, decide_eq_true_eq, decide_eq_false_iff_not] at h
  exact toUpper_eq_self_of_not_lower (by omega)

theorem upperHexDigit_isHexDigit {c : Char} (h : isUpperHexDigit c = true) :
    isHexDigit c = true := by
  simp only [isUpperHexDigit, Bool.and_eq_true] at h
  exact h.1

theorem dropWhile_eq_self_of_all {p : Char → Bool} {l : List Char}
    (h : ∀ c ∈ l, p c = false) : l.dropWhile p = l := by
  cases l with
  | nil => rfl
  | cons a t => simp [List.dropWhile_cons, h a (List.mem_cons_self a t)]

theorem jsTrimList_eq_self {l : List Char} (h : ∀ c ∈ l, isJsWs c = false) :
    jsTrimList l = l := by
  unfold jsTrimList
  rw [dropWhile_eq_self_of_all h,
    dropWhile_eq_self_of_all (fun c hc => h c (by simpa using hc)),
    List.reverse_reverse]

theorem map_eq_self_of_fixed {α : Type} {f : α → α} :
    ∀ {l : List α}, (∀ c ∈ l, f c = c) → l.map f = l
  | [], _ => rfl
  | a :: t, h => by
    rw [List.map_cons, h a (List.mem_cons_self a t),
      map_eq_self_of_fixed fun c hc => h c (List.mem_cons_of_mem a hc)]

theorem isHexColorList_iff {l : List Char} : isHexColorList l = true ↔
    ∃ rest, l = '#' :: rest ∧ (rest.length = 3 ∨ rest.length = 6) ∧
      ∀ c ∈ rest, isHexDigit c = true := by
  cases l with
  | nil => simp [isHexColorList]
  | cons a t =>
    simp only [isHexColorList, Bool.and_eq_true, Bool.or_eq_true, beq_iff_eq,
      List.all_eq_true, List.cons.injEq]
    constructor
    · rintro ⟨⟨ha, hlen⟩, hdig⟩
      exact ⟨t, ⟨ha, rfl⟩, hlen, hdig⟩
    · rintro ⟨rest, ⟨ha, ht⟩, hlen, hdig⟩
      subst ht
      exact ⟨⟨ha, hlen⟩, hdig⟩

theorem isUpperHex6_iff {s : String} : isUpperHex6 s = true ↔
    ∃ rest, s.data = '#' :: rest ∧ rest.length = 6 ∧
      ∀ c ∈ rest, isUpperHexDigit c = true := by
  obtain ⟨l⟩ := s
  show isUpperHex6 ⟨l⟩ = true ↔ _
  cases l with
  | nil => simp [isUpperHex6]
  | cons a t =>
    simp only [isUpperHex6, Bool.and_eq_true, beq_iff_eq,
      List.all_eq_true, List.cons.injEq]
    constructor
    · rintro ⟨⟨ha, hlen⟩, hdig⟩
      exact ⟨t, ⟨ha, rfl⟩, hlen, hdig⟩
    · rintro ⟨rest, ⟨ha, ht⟩, hlen, hdig⟩
      subst ht
      exact ⟨⟨ha, hlen⟩, hdig⟩

/-- On valid hex input, `normalizeColor` produces `#` followed by exactly six
uppercase hex digits. -/
theorem normalizeColor_valid_struct {s : String}
    (h : isHexColorList (jsTrimList s.data) = true) :
    ∃ ds : List Char, (normalizeColor s).data = '#' :: ds ∧ ds.length = 6 ∧
      (∀ c ∈ ds, isUpperHexDigit c = true) := by
  obtain ⟨rest, heq, hlen, hdig⟩ := isHexColorList_iff.mp h
  unfold normalizeColor
  rw [if_pos h, heq]
  rcases hlen with h3 | h6
  · -- three-digit form: the `hex.length === 4` branch doubles each digit
    obtain ⟨a, b, c, habc⟩ := List.length_eq_three.mp h3
    subst habc
    rw [if_pos (by simp)]
    refine ⟨[a.toUpper, a.toUpper, b.toUpper, b.toUpper, c.toUpper, c.toUpper],
      ?_, rfl, ?_⟩
    · simp [expandHex, hash_toUpper]
    · intro d hd
      have ha := hdig a (by simp)
      have hb := hdig b (by simp)
      have hc := hdig c (by simp)
      simp only [List.mem_cons, List.not_mem_nil, or_false] at hd
      rcases hd with hd | hd | hd | hd | hd | hd
      all_goals subst hd
      all_goals first
        | exact (hexDigit_toUpper ha).1
        | exact (hexDigit_toUpper hb).1
        | exact (hexDigit_toUpper hc).1
  · -- six-digit form: kept as is, uppercased
    rw [if_neg (by simp [h6])]
    refine ⟨rest.map Char.toUpper, ?_, ?_, ?_⟩
    · simp [hash_toUpper]
    · simp [h6]
    · intro c hc
      simp only [List.mem_map] at hc
      obtain ⟨d, hd, hcd⟩ := hc
      subst hcd
      exact (hexDigit_toUpper (hdig _ hd)).1

/-- A `#`-plus-six-uppercase-hex-digits string is a fixed point of
`normalizeColor`. -/
theorem normalizeColor_upperHex6_fixed {s : String} (h : isUpperHex6 s = true) :
    normalizeColor s = s := by
  obtain ⟨rest, heq, hlen, hdig⟩ := isUpperHex6_iff.mp h
  have hnows : ∀ c ∈ '#' :: rest, isJsWs c = false := by
    intro c hc
    rcases List.mem_cons.mp hc with h' | h'
    · subst h'; exact hash_not_ws
    · exact isHexDigit_not_ws (upperHexDigit_isHexDigit (hdig _ h'))
  have htrim : jsTrimList s.data = '#' :: rest := by
    rw [heq]; exact jsTrimList_eq_self hnows
  have hvalid : isHexColorList (jsTrimList s.data) = true := by
    rw [htrim]
    exact isHexColorList_iff.mpr
      ⟨rest, rfl, Or.inr hlen, fun c hc => upperHexDigit_isHexDigit (hdig c hc)⟩
  unfold normalizeColor
  rw [if_pos hvalid, htrim, if_neg (by simp [hlen])]
  have hmap : ('#' :: rest).map Char.toUpper = '#' :: rest := by
    rw [List.map_cons, hash_toUpper,
      map_eq_self_of_fixed fun c hc => upperHexDigit_fixed (hdig c hc)]
  rw [hmap]
  obtain ⟨l⟩ := s
  simp only at heq
  rw [heq]

theorem normalizeColor_default_fixed :
    normalizeColor DEFAULT_TAG_COLOR = DEFAULT_TAG_COLOR := by decide

theorem normalizeColor_isUpperHex6 {s : String}
    (h : isHexColorList (jsTrimList s.data) = true) :
    isUpperHex6 (normalizeColor s) = true := by
  obtain ⟨ds, hdata, hlen, hall⟩ := normalizeColor_valid_struct h
  exact isUpperHex6_iff.mpr ⟨ds, hdata, hlen, hall⟩

/-- `normalizeColor` is idempotent. -/
theorem normalizeColor_idem (s : String) :
    normalizeColor (normalizeColor s) = normalizeColor s := by
  by_cases h : isHexColorList (jsTrimList s.data) = true
  · exact normalizeColor_upperHex6_fixed (normalizeColor_isUpperHex6 h)
  · have : normalizeColor s = DEFAULT_TAG_COLOR := by
      unfold normalizeColor
      rw [if_neg h]
    rw [this, normalizeColor_default_fixed]

/-! ## Tab name normalization (editor.js lines 260-266) -/

/-- The character class `[\u0000-\u001F\u007F]` stripped from tab names. -/
def isStripped (c : Char) : Bool := c.toNat ≤ 31 || c.toNat == 127

/-- `replace(/\s+/g, ' ')`: each maximal run of whitespace becomes one space.
The flag records whether the previous character was part of a run. -/
def collapseWsAux : Bool → List Char → List Char
  | _, [] => []
  | prevWs, c :: rest =>
    if isJsWs c then
      if prevWs then collapseWsAux true rest
      else ' ' :: collapseWsAux true rest
    else c :: collapseWsAux false rest

/-- `normalizeTabName` (editor.js lines 260-266) with the default
`maxLen = 120` (the only length used by the source). -/
def normalizeTabName (input : String) : String :=
  let l := input.data.filter (fun c => !(isStripped c))
  let l := jsTrimList (collapseWsAux false l)
  ⟨if 120 < l.length then jsTrimList (l.take 120) else l⟩

/-! ## Data model

`Tab` mirrors the record type at editor.js line 237; `_dirty` defaults to
`false` (absent means falsy).  `StackEntry` mirrors the in-memory
`closedStack` entries `{ ...tmeta, value, _hid, closedAt }` (lines 438, 471);
`tab = none` encodes spreading an `undefined` tab.  `HistRec` mirrors the
normalized persistent history records built by `pushClosedHistory`
(lines 78-85). -/

structure Tab where
  id : Nat
  name : String
  language : String
  uri : String
  color : String
  dirty : Bool
deriving Repr, DecidableEq

structure StackEntry where
  tab : Option Tab
  value : Option String
  hid : Nat
  closedAt : Nat
deriving Repr, DecidableEq

structure HistRec where
  hid : Nat
  name : String
  language : String
  value : String
  color : String
  closedAt : Nat
deriving Repr, DecidableEq

structure RawTab where
  id : Option Nat
  name : Option String
  language : Option String
  uri : Option String
  color : Option String
  dirty : Option Bool
deriving Repr, DecidableEq

/-- The mutable session state of the tab manager.  `models` is the Buffer
Cache (`id → model content`), `store` the `model:<id>` keys of
`localStorage`, `saveTimeouts` the pending debounce timers (`id → value the
timer closure captured`), `nextId` the uuid supply, `now` the wall clock,
and `contentWriteLog` a ghost log of every `localStorage.setItem` on a
`model:<id>` key (newest first). -/
structure EditorState where
  tabs : List Tab
  activeTabId : Nat
  models : List (Nat × String)
  store : List (Nat × String)
  closedStack : List StackEntry
  closedHistory : List HistRec
  saveTimeouts : List (Nat × String)
  renameState : Option (Nat × String)
  pendingRenameId : Option Nat
  editorLanguage : Option String
  nextId : Nat
  now : Nat
  contentWriteLog : List (Nat × String)
deriving Repr, DecidableEq

/-! ### Association-list operations (JS `Map` / `localStorage` keys) -/

def lookupA (l : List (Nat × String)) (k : Nat) : Option String :=
  (l.find? (fun p => p.1 == k)).map (fun p => p.2)

/-- `Map.set` / `localStorage.setItem`: replaces any previous binding. -/
def insertA (l : List (Nat × String)) (k : Nat) (v : String) : List (Nat × String) :=
  (k, v) :: l.filter (fun p => !(p.1 == k))

/-- `Map.delete` / `localStorage.removeItem`. -/
def eraseA (l : List (Nat × String)) (k : Nat) : List (Nat × String) :=
  l.filter (fun p => !(p.1 == k))

/-! ### Small helpers -/

/-- The JS `x || d` idiom on an optional string: `undefined`, `null` and
`""` all fall back to `d`. -/
def jsOr (o : Option String) (d : String) : String :=
  match o with
  | some s => if s = "" then d else s
  | none => d

def uriFor (id : Nat) : String := "inmemory://" ++ toString id

def defaultContent : String := ""

def getTab (s : EditorState) (id : Nat) : Option Tab :=
  s.tabs.find? (fun t => t.id == id)

/-- In-place mutation of the tab object found by `getTab`: updates the
first element with the given id. -/
def updateFirstTab (l : List Tab) (id : Nat) (f : Tab → Tab) : List Tab :=
  match l with
  | [] => []
  | t :: rest => if t.id == id then f t :: rest else t :: updateFirstTab rest id f

/-- `uuid()` (line 245): returns a fresh identifier and advances the supply. -/
def freshId (s : EditorState) : Nat × EditorState :=
  (s.nextId, { s with nextId := s.nextId + 1 })

/-! ### Operations (editor.js) -/

/-- `ensureModel` (lines 329-337). -/
def ensureModel (s : EditorState) (tab : Tab) : EditorState :=
  match lookupA s.models tab.id with
  | some _ => s
  | none =>
    let value := (lookupA s.store tab.id).getD defaultContent
    { s with models := insertA s.models tab.id value }

/-- `renameTab` (lines 503-523); the DOM branches are not modelled. -/
def renameTab (s : EditorState) (id : Nat) (newName : String) : EditorState :=
  match getTab s id with
  | none => s
  | some t =>
    let normalized := normalizeTabName newName
    if t.name = normalized then s
    else { s with tabs := updateFirstTab s.tabs id (fun tb => { tb with name := normalized }) }

/-- `commitRename` (lines 615-633): applies the pending inline rename, if any. -/
def commitRename (s : EditorState) : EditorState :=
  match s.renameState with
  | none => s
  | some (tid, v) =>
    let s := { s with renameState := none }
    match getTab s tid with
    | some _ => renameTab s tid v
    | none => s

/-- `startInlineRename` (lines 798-824): begins editing the tab's name
(input seeded with the current name); no-op if a rename is in progress. -/
def startInlineRename (s : EditorState) (tab : Tab) : EditorState :=
  match s.renameState with
  | some _ => s
  | none => { s with renameState := some (tab.id, tab.name) }

/-- `setActive` (lines 300-328).  `none` models the `!id` guard (a `null`
id).  When the id is not in the registry the source throws after the
assignment; that point is unreachable from the source's call sites, and the
model stops there with the assignment applied. -/
def setActive (s : EditorState) (oid : Option Nat) : EditorState :=
  match oid with
  | none => s
  | some id =>
    let s := match s.renameState with
      | some (tid, _) => if tid ≠ id then commitRename s else s
      | none => s
    let s := { s with activeTabId := id }
    match getTab s id with
    | none => s
    | some tab =>
      let s := ensureModel s tab
      if s.pendingRenameId = some id then
        startInlineRename { s with pendingRenameId := none } tab
      else s

/-- `createTab` (lines 416-428). -/
def createTab (s : EditorState) (name language value color : String) : EditorState :=
  let s := commitRename s
  let (id, s) := freshId s
  let safeName := normalizeTabName name
  let safeColor := normalizeColor color
  let s := { s with
    tabs := s.tabs ++ [⟨id, safeName, language, uriFor id, safeColor, false⟩],
    store := insertA s.store id value,
    contentWriteLog := (id, value) :: s.contentWriteLog }
  setActive s (some id)

/-- `createTab()` with all defaults (line 416). -/
def createTabDefault (s : EditorState) : EditorState :=
  createTab s "" (jsOr s.editorLanguage "markdown") defaultContent DEFAULT_TAG_COLOR

/-- The record built by `pushClosedHistory` (lines 78-85).  Both call sites
set `_hid`, so the `entry._hid || uuid()` fallback is dead code. -/
def mkHistRec (s : EditorState) (e : StackEntry) : HistRec :=
  { hid := e.hid,
    name := normalizeTabName ((e.tab.map Tab.name).getD ""),
    language := jsOr (e.tab.map Tab.language) "markdown",
    value := e.value.getD "",
    color := normalizeColorOpt (e.tab.map Tab.color),
    closedAt := s.now }

/-- `pushClosedHistory` (lines 77-89); `persistHistory` is assumed to
succeed (no quota failure), so the trimming retry loop does not run. -/
def pushClosedHistory (s : EditorState) (e : StackEntry) : EditorState :=
  let r := mkHistRec s e
  let h := r :: s.closedHistory
  { s with closedHistory := if MAX_HISTORY < h.length then h.take MAX_HISTORY else h }

/-- `removeHistoryByHid` (lines 90-96). -/
def removeHistoryByHid (s : EditorState) (hid : Nat) : EditorState :=
  match s.closedHistory.findIdx? (fun r => r.hid == hid) with
  | some idx => { s with closedHistory := s.closedHistory.eraseIdx idx }
  | none => s

/-- `closeTab` (lines 432-488). -/
def closeTab (s : EditorState) (id : Nat) : EditorState :=
  let s := commitRename s
  if s.tabs.length = 1 then
    -- always keep at least one tab (lines 434-454)
    let t? := getTab s id
    let val? := lookupA s.store id
    let (hid, s) := freshId s
    let histEntry : StackEntry := ⟨t?, val?, hid, s.now⟩
    let s := { s with closedStack := s.closedStack ++ [histEntry] }
    let s := pushClosedHistory s histEntry
    let s := { s with store := eraseA s.store id }
    let (newId, s) := freshId s
    let newTab : Tab :=
      ⟨newId, "", jsOr (t?.map Tab.language) "markdown", uriFor newId,
        normalizeColorOpt (t?.map Tab.color), false⟩
    setActive { s with tabs := [newTab] } (some newId)
  else
    match s.tabs.findIdx? (fun t => t.id == id) with
    | none => s
    | some idx =>
      -- dispose the model, capturing its content (lines 459-462)
      let m? := lookupA s.models id
      let s := { s with models := eraseA s.models id }
      -- drop storage, falling back to it for the content (lines 464-466)
      let content? := match m? with
        | some v => some v
        | none => lookupA s.store id
      let s := { s with store := eraseA s.store id }
      -- push to stack and persistent history (lines 468-474)
      let t? := getTab s id
      let s := match t? with
        | some _ =>
          let (hid, s) := freshId s
          let histEntry : StackEntry := ⟨t?, content?, hid, s.now⟩
          pushClosedHistory { s with closedStack := s.closedStack ++ [histEntry] } histEntry
        | none => s
      -- choose next active (lines 476-488)
      let closingActive := id = s.activeTabId
      let s := { s with tabs := s.tabs.eraseIdx idx }
      if closingActive then
        match (match s.tabs[idx]? with | some t => some t | none => s.tabs[idx - 1]?) with
        | some next => setActive s (some next.id)
        | none => s
      else s

/-- `reopenClosedTab` (lines 490-501). -/
def reopenClosedTab (s : EditorState) : EditorState :=
  let s := commitRename s
  match s.closedStack.getLast? with
  | some last =>
    let s := removeHistoryByHid { s with closedStack := s.closedStack.dropLast } last.hid
    createTab s ((last.tab.map Tab.name).getD "")
      (match last.tab.map Tab.language with
        | some l => l
        | none => jsOr s.editorLanguage "markdown")
      (last.value.getD defaultContent)
      ((last.tab.map Tab.color).getD DEFAULT_TAG_COLOR)
  | none =>
    match s.closedHistory with
    | [] => s
    | h :: rest =>
      createTab { s with closedHistory := rest } h.name h.language (h.value) h.color

/-- `setTabColor` (lines 525-537). -/
def setTabColor (s : EditorState) (id : Nat) (color : String) : EditorState :=
  match getTab s id with
  | none => s
  | some t =>
    let normalized := normalizeColor color
    if t.color = normalized then s
    else { s with tabs := updateFirstTab s.tabs id (fun tb => { tb with color := normalized }) }

/-- `setTabDirty` (lines 791-796). -/
def setTabDirty (s : EditorState) (id : Nat) (dirty : Bool) : EditorState :=
  { s with tabs := updateFirstTab s.tabs id (fun tb => { tb with dirty := dirty }) }

/-- `scheduleSave` (lines 370-385).  `editor.getModel()` is the buffer bound
to the editing surface, which is always the active tab's model; the new
timer replaces (cancels) any pending one for the same id. -/
def scheduleSave (s : EditorState) : EditorState :=
  let id := s.activeTabId
  match lookupA s.models id with
  | none => s
  | some value => { s with saveTimeouts := insertA s.saveTimeouts id value }

/-- A content-change event: the user edit updates the active tab's buffer
to `v`, then the `onDidChangeModelContent` handler (lines 387-392) runs. -/
def contentChange (s : EditorState) (v : String) : EditorState :=
  let s := { s with models := insertA s.models s.activeTabId v }
  let s := match getTab s s.activeTabId with
    | some t => if t.dirty = false then setTabDirty s t.id true else s
    | none => s
  scheduleSave s

/-- The debounce timer for `id` fires (the callback at lines 379-383):
writes the captured value to storage, marks the tab clean, and removes
itself.  If the timer was cancelled (not in `saveTimeouts`), nothing runs. -/
def fireTimer (s : EditorState) (id : Nat) : EditorState :=
  match lookupA s.saveTimeouts id with
  | none => s
  | some value =>
    { s with
      store := insertA s.store id value,
      contentWriteLog := (id, value) :: s.contentWriteLog,
      tabs := updateFirstTab s.tabs id (fun tb => { tb with dirty := false }),
      saveTimeouts := eraseA s.saveTimeouts id }

/-! ### Initialization (editor.js lines 233-365) -/

/-- One step of the stored-tab normalization map (lines 281-299), threading
the uuid supply for tabs whose stored id is missing/falsy. -/
def normalizeStoredTab (nid : Nat) (raw : RawTab) : Tab × Nat :=
  let (id, nid') := match raw.id with
    | some i => (i, nid)
    | none => (nid, nid + 1)
  (⟨id,
    normalizeTabName (raw.name.getD ""),
    jsOr raw.language "markdown",
    jsOr raw.uri (uriFor id),
    normalizeColorOpt raw.color,
    raw.dirty.getD false⟩, nid')

def normalizeStoredTabs : Nat → List RawTab → List Tab × Nat
  | nid, [] => ([], nid)
  | nid, r :: rest =>
    let (t, nid') := normalizeStoredTab nid r
    let (ts, nid'') := normalizeStoredTabs nid' rest
    (t :: ts, nid'')

/-- `initializeEditor`'s tab-state setup (lines 233-365): rehydrate and
normalize the persisted tabs (a `none` raw entry is a `null` dropped by
`filter(Boolean)`), bootstrap a first tab when none survive, resolve the
persisted active id (falling back to the first tab), build the active
model, and activate. -/
def initializeEditor (rawTabs : List (Option RawTab)) (storedActive : Option Nat)
    (storedLang : Option String) (storedHistory : List HistRec)
    (store0 : List (Nat × String)) (startId : Nat) (clock : Nat) : EditorState :=
  let (tabs0, nid0) := normalizeStoredTabs startId rawTabs.reduceOption
  let (tabs1, active, nid1) := match tabs0 with
    | [] =>
      ([(⟨nid0, "", jsOr storedLang "markdown", uriFor nid0, DEFAULT_TAG_COLOR, false⟩ : Tab)],
        nid0, nid0 + 1)
    | t0 :: _ =>
      (tabs0,
        (match storedActive with
          | some a => if (tabs0.find? (fun t => t.id == a)).isSome then a else t0.id
          | none => t0.id),
        nid0)
  let s : EditorState :=
    { tabs := tabs1, activeTabId := active, models := [], store := store0,
      closedStack := [], closedHistory := storedHistory, saveTimeouts := [],
      renameState := none, pendingRenameId := none, editorLanguage := storedLang,
      nextId := nid1, now := clock, contentWriteLog := [] }
  let s := match getTab s active with
    | some t => ensureModel s t
    | none => s
  setActive s (some active)

/-- `cycleNext` (lines 838-842).  `findIndex` returns `-1` when the active
id is missing; on an empty registry the source faults, modelled as a no-op. -/
def cycleNext (s : EditorState) : EditorState :=
  if s.tabs.length = 0 then s
  else
    let idx : Int := match s.tabs.findIdx? (fun t => t.id == s.activeTabId) with
      | some i => (i : Int)
      | none => -1
    match s.tabs[((idx + 1) % (s.tabs.length : Int)).toNat]? with
    | some next => setActive s (some next.id)
    | none => s

/-- `cyclePrev` (lines 843-847). -/
def cyclePrev (s : EditorState) : EditorState :=
  if s.tabs.length = 0 then s
  else
    let idx : Int := match s.tabs.findIdx? (fun t => t.id == s.activeTabId) with
      | some i => (i : Int)
      | none => -1
    match s.tabs[((idx - 1 + (s.tabs.length : Int)) % (s.tabs.length : Int)).toNat]? with
    | some prev => setActive s (some prev.id)
    | none => s

/-- Numeric switching `Cmd/Ctrl+Alt+1..9` (lines 861-875): `9` always means
the last tab; otherwise ordinal `n` is index `n - 1` if it exists. -/
def jumpTab (s : EditorState) (num : Nat) : EditorState :=
  if num = 9 then
    match s.tabs.getLast? with
    | some t => setActive s (some t.id)
    | none => s
  else
    match s.tabs[num - 1]? with
    | some t => setActive s (some t.id)
    | none => s

/-! ## Association-list lemmas -/

theorem find?_filter_of_imp {α : Type} (p q : α → Bool) :
    ∀ l : List α, (∀ x, p x = true → q x = true) →
      (l.filter q).find? p = l.find? p := by
  intro l h
  induction l with
  | nil => rfl
  | cons a t ih =>
    by_cases hq : q a = true
    · rw [List.filter_cons_of_pos hq]
      by_cases hp : p a = true
      · rw [List.find?_cons_of_pos _ hp, List.find?_cons_of_pos _ hp]
      · rw [List.find?_cons_of_neg _ (by simpa using hp),
          List.find?_cons_of_neg _ (by simpa using hp), ih]
    · have hp : p a = false := by
        cases hpa : p a
        · rfl
        · exact absurd (h a hpa) hq
      rw [List.filter_cons_of_neg (by simpa using hq),
        List.find?_cons_of_neg _ (by simp [hp]), ih]

theorem lookupA_insertA_self (l : List (Nat × String)) (k : Nat) (v : String) :
    lookupA (insertA l k v) k = some v := by
  simp [lookupA, insertA, List.find?_cons_of_pos]

theorem lookupA_insertA_ne (l : List (Nat × String)) (k k' : Nat) (v : String)
    (h : k' ≠ k) : lookupA (insertA l k v) k' = lookupA l k' := by
  unfold lookupA insertA
  rw [List.find?_cons_of_neg _ (by simp [Ne.symm h]),
    find?_filter_of_imp _ _ l (by intro x hx; simp at hx ⊢; omega)]

theorem lookupA_eraseA_self (l : List (Nat × String)) (k : Nat) :
    lookupA (eraseA l k) k = none := by
  unfold lookupA eraseA
  rw [Option.map_eq_none', List.find?_eq_none]
  intro x hx
  have := List.of_mem_filter hx
  simp at this ⊢
  omega

theorem lookupA_eraseA_ne (l : List (Nat × String)) (k k' : Nat) (h : k' ≠ k) :
    lookupA (eraseA l k) k' = lookupA l k' := by
  unfold lookupA eraseA
  rw [find?_filter_of_imp _ _ l (by intro x hx; simp at hx ⊢; omega)]

theorem lookupA_eq_none_of_forall (l : List (Nat × String)) (k : Nat)
    (h : ∀ p ∈ l, p.1 ≠ k) : lookupA l k = none := by
  unfold lookupA
  rw [Option.map_eq_none', List.find?_eq_none]
  intro x hx
  simpa using h x hx

theorem eraseA_insertA_self (l : List (Nat × String)) (k : Nat) (v : String) :
    eraseA (insertA l k v) k = eraseA l k := by
  unfold eraseA insertA
  rw [List.filter_cons_of_neg (by simp), List.filter_filter]
  refine List.filter_congr ?_
  intro x _
  cases h : (x.1 == k) <;> simp [h]

theorem mem_insertA (l : List (Nat × String)) (k : Nat) (v : String) :
    ∀ p ∈ insertA l k v, p = (k, v) ∨ p ∈ l := by
  intro p hp
  rcases List.mem_cons.mp hp with h | h
  · exact Or.inl h
  · exact Or.inr (List.mem_of_mem_filter h)

theorem mem_eraseA (l : List (Nat × String)) (k : Nat) :
    ∀ p ∈ eraseA l k, p ∈ l := fun _ hp => List.mem_of_mem_filter hp

/-! ## `updateFirstTab` lemmas -/

theorem updateFirstTab_map_id (id : Nat) (f : Tab → Tab)
    (hf : ∀ t, (f t).id = t.id) :
    ∀ l : List Tab, (updateFirstTab l id f).map Tab.id = l.map Tab.id := by
  intro l
  induction l with
  | nil => rfl
  | cons t rest ih =>
    unfold updateFirstTab
    by_cases h : (t.id == id) = true
    · rw [if_pos h]
      simp [hf]
    · rw [if_neg h]
      simp only [List.map_cons, ih]

theorem updateFirstTab_length (id : Nat) (f : Tab → Tab) (l : List Tab) :
    (updateFirstTab l id f).length = l.length := by
  induction l with
  | nil => rfl
  | cons t rest ih =>
    unfold updateFirstTab
    by_cases h : (t.id == id) = true
    · rw [if_pos h]; simp
    · rw [if_neg h]; simpa using ih

theorem mem_updateFirstTab (id : Nat) (f : Tab → Tab) :
    ∀ (l : List Tab) (t : Tab), t ∈ updateFirstTab l id f →
      t ∈ l ∨ ∃ t₀ ∈ l, t = f t₀ := by
  intro l
  induction l with
  | nil => intro t h; exact absurd h (List.not_mem_nil t)
  | cons a rest ih =>
    intro t h
    unfold updateFirstTab at h
    by_cases ha : (a.id == id) = true
    · rw [if_pos ha] at h
      rcases List.mem_cons.mp h with h | h
      · exact Or.inr ⟨a, List.mem_cons_self a rest, h⟩
      · exact Or.inl (List.mem_cons_of_mem a h)
    · rw [if_neg ha] at h
      rcases List.mem_cons.mp h with h | h
      · exact Or.inl (h ▸ List.mem_cons_self a rest)
      · rcases ih t h with h' | ⟨t₀, ht₀, rfl⟩
        · exact Or.inl (List.mem_cons_of_mem a h')
        · exact Or.inr ⟨t₀, List.mem_cons_of_mem a ht₀, rfl⟩

/-! ## Field-projection lemmas for the composite operations -/

theorem renameTab_eq (s : EditorState) (id : Nat) (nm : String) :
    ∃ tb, renameTab s id nm = { s with tabs := tb } ∧
      tb.map Tab.id = s.tabs.map Tab.id := by
  simp only [renameTab]
  cases h : getTab s id with
  | none => exact ⟨s.tabs, rfl, rfl⟩
  | some t =>
    dsimp only
    by_cases he : t.name = normalizeTabName nm
    · rw [if_pos he]
      exact ⟨s.tabs, rfl, rfl⟩
    · rw [if_neg he]
      exact ⟨_, rfl, updateFirstTab_map_id id
        (fun tb => { tb with name := normalizeTabName nm }) (fun _ => rfl) s.tabs⟩

theorem commitRename_eq (s : EditorState) :
    ∃ tb, commitRename s = { s with tabs := tb, renameState := none } ∧
      tb.map Tab.id = s.tabs.map Tab.id := by
  unfold commitRename
  cases hrs : s.renameState with
  | none =>
    refine ⟨s.tabs, ?_, rfl⟩
    dsimp only
    rw [← hrs]
  | some p =>
    obtain ⟨tid, v⟩ := p
    dsimp only
    cases hg : getTab { s with renameState := none } tid with
    | none => exact ⟨s.tabs, rfl, rfl⟩
    | some t =>
      obtain ⟨tb, heq, hids⟩ := renameTab_eq { s with renameState := none } tid v
      rw [heq]
      exact ⟨tb, rfl, hids⟩

theorem commitRename_none {s : EditorState} (h : s.renameState = none) :
    commitRename s = s := by
  unfold commitRename
  rw [h]

theorem ensureModel_eq (s : EditorState) (t : Tab) :
    ∃ m, ensureModel s t = { s with models := m } := by
  unfold ensureModel
  cases lookupA s.models t.id with
  | none => exact ⟨_, rfl⟩
  | some v => exact ⟨s.models, rfl⟩

theorem startInlineRename_eq (s : EditorState) (t : Tab) :
    ∃ r, startInlineRename s t = { s with renameState := r } := by
  unfold startInlineRename
  cases hrs : s.renameState with
  | none => exact ⟨_, rfl⟩
  | some p =>
    refine ⟨s.renameState, ?_⟩
    dsimp only

theorem setActive_eq (s : EditorState) (id : Nat) :
    ∃ tb m r pr, setActive s (some id) =
      { s with activeTabId := id, tabs := tb, models := m,
               renameState := r, pendingRenameId := pr } ∧
      tb.map Tab.id = s.tabs.map Tab.id := by
  unfold setActive
  dsimp only
  have step : ∃ tb₀ r₀,
      (match s.renameState with
        | some (tid, _) => if tid ≠ id then commitRename s else s
        | none => s) = { s with tabs := tb₀, renameState := r₀ } ∧
      tb₀.map Tab.id = s.tabs.map Tab.id := by
    cases hrs : s.renameState with
    | none =>
      refine ⟨s.tabs, s.renameState, ?_, rfl⟩
      dsimp only
    | some p =>
      obtain ⟨tid, v⟩ := p
      dsimp only
      by_cases h : tid ≠ id
      · rw [if_pos h]
        obtain ⟨tb, hc, hi⟩ := commitRename_eq s
        exact ⟨tb, none, hc, hi⟩
      · rw [if_neg h]
        exact ⟨s.tabs, s.renameState, rfl, rfl⟩
  obtain ⟨tb₀, r₀, hstep, hids₀⟩ := step
  rw [hstep]
  dsimp only
  split
  · exact ⟨tb₀, s.models, r₀, s.pendingRenameId, rfl, hids₀⟩
  · rename_i tab hg
    obtain ⟨m₁, hm⟩ := ensureModel_eq
      { s with tabs := tb₀, renameState := r₀, activeTabId := id } tab
    rw [hm]
    split
    · obtain ⟨r₂, hr⟩ := startInlineRename_eq
        { s with tabs := tb₀, renameState := r₀, activeTabId := id,
                 models := m₁, pendingRenameId := none } tab
      rw [hr]
      exact ⟨tb₀, m₁, r₂, none, rfl, hids₀⟩
    · exact ⟨tb₀, m₁, r₀, s.pendingRenameId, rfl, hids₀⟩

/-! ## Claim C10 -/

/-- C10: `normalizeColor` is total and idempotent: for every input string it
returns an uppercase six-digit hex string (a three-digit hex being expanded
to six digits) when the trimmed input is a valid hex color, and the default
gray otherwise; and `normalizeColor (normalizeColor x) = normalizeColor x`
for every `x`. -/
theorem claim_C10_normalizeColor_total_idem (input : String) :
    normalizeColor (normalizeColor input) = normalizeColor input ∧
    (isHexColorList (jsTrimList input.data) = true →
      isUpperHex6 (normalizeColor input) = true) ∧
    (isHexColorList (jsTrimList input.data) = false →
      normalizeColor input = DEFAULT_TAG_COLOR) := by
  refine ⟨normalizeColor_idem input, fun h => normalizeColor_isUpperHex6 h, fun h => ?_⟩
  unfold normalizeColor
  rw [if_neg (by simp [h])]

theorem claim_C10_witness :
    normalizeColor (normalizeColor "#a1b") = normalizeColor "#a1b" ∧
    isUpperHex6 (normalizeColor "#a1b") = true ∧
    normalizeColor "blue" = DEFAULT_TAG_COLOR :=
  ⟨(claim_C10_normalizeColor_total_idem "#a1b").1,
   (claim_C10_normalizeColor_total_idem "#a1b").2.1 (by decide),
   (claim_C10_normalizeColor_total_idem "blue").2.2 (by decide)⟩

/-! ## Claim C8

The claim says the stored color is always a member of the fixed palette or
the default.  That is false: `normalizeColor` accepts any syntactically
valid hex color and stores it verbatim (uppercased), e.g. `#123456`,
which is neither in `TAG_COLORS` nor the default. -/

/-- C8 (counterexample): `setTabColor` with the valid hex string `#123456`
stores `#123456` on the tab, which is neither a palette member nor the
default gray — refuting "the color stored on the tab is a member of the
fixed tag-color palette or the neutral default" for that input. -/
theorem claim_C8_counterexample :
    ((setTabColor (initializeEditor [] none none [] [] 1 0) 1 "#123456").tabs.map
        Tab.color = ["#123456"]) ∧
    "#123456" ∉ TAG_COLORS ∧ "#123456" ≠ DEFAULT_TAG_COLOR := by
  refine ⟨?_, by decide, by decide⟩
  decide

/-- C8 (amended): `setColor(id, color)` stores `normalizeColor color` on
the targeted tab (tabs other than the first one carrying `id` are
untouched), and `normalizeColor` is total: its result is always either the
neutral default (which is itself a palette member) or an uppercase
six-digit hex color; syntactically invalid inputs always map to the
default, but valid hex values outside the palette are stored verbatim. -/
theorem claim_C8_setColor_normalized (s : EditorState) (id : Nat) (color : String) :
    (∀ t ∈ (setTabColor s id color).tabs, t ∈ s.tabs ∨ t.color = normalizeColor color) ∧
    (normalizeColor color = DEFAULT_TAG_COLOR ∨
      isUpperHex6 (normalizeColor color) = true) := by
  constructor
  · intro t ht
    unfold setTabColor at ht
    cases hg : getTab s id with
    | none =>
      rw [hg] at ht
      exact Or.inl ht
    | some t₀ =>
      rw [hg] at ht
      dsimp only at ht
      by_cases he : t₀.color = normalizeColor color
      · rw [if_pos he] at ht
        exact Or.inl ht
      · rw [if_neg he] at ht
        dsimp only at ht
        rcases mem_updateFirstTab id _ s.tabs t ht with h | ⟨t₁, _, rfl⟩
        · exact Or.inl h
        · exact Or.inr rfl
  · by_cases h : isHexColorList (jsTrimList color.data) = true
    · exact Or.inr (normalizeColor_isUpperHex6 h)
    · refine Or.inl ?_
      unfold normalizeColor
      rw [if_neg h]

theorem claim_C8_witness :
    ((⟨1, "", "markdown", "inmemory://1", "#123456", false⟩ : Tab) ∈
        (initializeEditor [] none none [] [] 1 0).tabs ∨
      (⟨1, "", "markdown", "inmemory://1", "#123456", false⟩ : Tab).color =
        normalizeColor "#123456") ∧
    (normalizeColor "#123456" = DEFAULT_TAG_COLOR ∨
      isUpperHex6 (normalizeColor "#123456") = true) :=
  ⟨(claim_C8_setColor_normalized (initializeEditor [] none none [] [] 1 0) 1 "#123456").1
      ⟨1, "", "markdown", "inmemory://1", "#123456", false⟩ (by decide),
   (claim_C8_setColor_normalized (initializeEditor [] none none [] [] 1 0) 1 "#123456").2⟩

/-! ## Claim C9 -/

/-- C9: with at least two tabs in the registry (and no inline rename in
progress), `closeTab` on an id not present in the registry returns the
state unchanged: registry, active tab id, buffer map, content storage and
closed-tab history are all as before. -/
theorem claim_C9_closeTab_missing_noop (s : EditorState) (id : Nat)
    (hren : s.renameState = none)
    (hlen : 2 ≤ s.tabs.length)
    (hid : ∀ t ∈ s.tabs, t.id ≠ id) :
    closeTab s id = s := by
  unfold closeTab
  rw [commitRename_none hren]
  rw [if_neg (by omega)]
  have hfind : s.tabs.findIdx? (fun t => t.id == id) = none := by
    rw [List.findIdx?_eq_none_iff]
    intro t ht
    simpa using hid t ht
  rw [hfind]

def stateTwoTabs : EditorState :=
  createTab (initializeEditor [] none none [] [] 1 0) "A" "markdown" "a" DEFAULT_TAG_COLOR

theorem claim_C9_witness : closeTab stateTwoTabs 99 = stateTwoTabs :=
  claim_C9_closeTab_missing_noop stateTwoTabs 99 (by decide) (by decide) (by decide)

/-! ## Claim C6 -/

/-- `mkHistRec`, abstracted over the clock value it reads. -/
def mkHistRecN (now : Nat) (e : StackEntry) : HistRec :=
  { hid := e.hid,
    name := normalizeTabName ((e.tab.map Tab.name).getD ""),
    language := jsOr (e.tab.map Tab.language) "markdown",
    value := e.value.getD "",
    color := normalizeColorOpt (e.tab.map Tab.color),
    closedAt := now }

theorem mkHistRec_eq_mkHistRecN (s : EditorState) (e : StackEntry) :
    mkHistRec s e = mkHistRecN s.now e := rfl

/-- A sequence of `pushClosedHistory` calls. -/
def pushMany (s : EditorState) (es : List StackEntry) : EditorState :=
  es.foldl pushClosedHistory s

theorem pushClosedHistory_closedHistory (s : EditorState) (e : StackEntry) :
    (pushClosedHistory s e).closedHistory =
      (mkHistRec s e :: s.closedHistory).take MAX_HISTORY := by
  unfold pushClosedHistory
  dsimp only
  by_cases h : MAX_HISTORY < (mkHistRec s e :: s.closedHistory).length
  · rw [if_pos h]
  · rw [if_neg h]
    exact (List.take_of_length_le (by omega)).symm

theorem pushClosedHistory_now (s : EditorState) (e : StackEntry) :
    (pushClosedHistory s e).now = s.now := rfl

theorem take_append_take (n : Nat) (l m : List HistRec) :
    (l ++ m.take n).take n = (l ++ m).take n := by
  rw [List.take_append_eq_append_take, List.take_take,
    Nat.min_eq_left (Nat.sub_le n l.length), List.take_append_eq_append_take]

theorem pushMany_closedHistory :
    ∀ (es : List StackEntry) (s : EditorState),
      s.closedHistory.length ≤ MAX_HISTORY →
      (pushMany s es).closedHistory =
        ((es.map (mkHistRecN s.now)).reverse ++ s.closedHistory).take MAX_HISTORY := by
  intro es
  induction es with
  | nil =>
    intro s h
    simp only [pushMany, List.foldl_nil, List.map_nil, List.reverse_nil, List.nil_append]
    exact (List.take_of_length_le h).symm
  | cons e rest ih =>
    intro s h
    show (pushMany (pushClosedHistory s e) rest).closedHistory = _
    rw [ih (pushClosedHistory s e)
        (by rw [pushClosedHistory_closedHistory]
            exact le_trans (List.length_take_le _ _) (le_refl _)),
      pushClosedHistory_now, pushClosedHistory_closedHistory,
      mkHistRec_eq_mkHistRecN, take_append_take]
    congr 1
    simp [List.append_assoc]

/-- C6: pushing `MAX_HISTORY + 5` closed-tab entries leaves exactly
`MAX_HISTORY` history records, and the resulting history is the
newest-first sequence of the pushed (normalized) records prepended to the
old history, truncated to `MAX_HISTORY` — i.e. the oldest entries are the
ones dropped. -/
theorem claim_C6_history_bound (s : EditorState) (es : List StackEntry)
    (hlen : es.length = MAX_HISTORY + 5) :
    (pushMany s es).closedHistory.length = MAX_HISTORY ∧
    (pushMany s es).closedHistory =
      ((es.map (mkHistRec s)).reverse ++ s.closedHistory).take MAX_HISTORY := by
  cases es with
  | nil => simp [MAX_HISTORY] at hlen
  | cons e rest =>
    have hmain :
        (pushMany s (e :: rest)).closedHistory =
          (((e :: rest).map (mkHistRecN s.now)).reverse ++ s.closedHistory).take
            MAX_HISTORY := by
      show (pushMany (pushClosedHistory s e) rest).closedHistory = _
      rw [pushMany_closedHistory rest (pushClosedHistory s e)
          (by rw [pushClosedHistory_closedHistory]
              exact List.length_take_le _ _),
        pushClosedHistory_now, pushClosedHistory_closedHistory,
        mkHistRec_eq_mkHistRecN, take_append_take]
      congr 1
      simp [List.append_assoc]
    have hrecn : (fun e => mkHistRec s e) = mkHistRecN s.now := by
      funext e
      exact mkHistRec_eq_mkHistRecN s e
    constructor
    · rw [hmain, List.length_take]
      simp only [List.length_append, List.length_reverse, List.length_map, hlen]
      omega
    · have hmap : (e :: rest).map (mkHistRec s) = (e :: rest).map (mkHistRecN s.now) :=
        List.map_congr_left (fun x _ => mkHistRec_eq_mkHistRecN s x)
      rw [hmain, hmap]

def entries25 : List StackEntry :=
  (List.range (MAX_HISTORY + 5)).map (fun i => ⟨none, some "v", i, 0⟩)

theorem claim_C6_witness :
    (pushMany (initializeEditor [] none none [] [] 1 0) entries25).closedHistory.length =
      MAX_HISTORY :=
  (claim_C6_history_bound (initializeEditor [] none none [] [] 1 0) entries25
    (by decide)).1

/-! ## Registry-size lemmas (claim C1) -/

theorem map_id_length {tb l : List Tab} (h : tb.map Tab.id = l.map Tab.id) :
    tb.length = l.length := by
  have := congrArg List.length h
  simpa using this

theorem setActive_tabs_length (s : EditorState) (id : Nat) :
    (setActive s (some id)).tabs.length = s.tabs.length := by
  obtain ⟨tb, m, r, pr, hset, hids⟩ := setActive_eq s id
  rw [hset]
  exact map_id_length hids

theorem setActive_activeTabId (s : EditorState) (id : Nat) :
    (setActive s (some id)).activeTabId = id := by
  obtain ⟨tb, m, r, pr, hset, hids⟩ := setActive_eq s id
  rw [hset]

theorem setActive_tabs_map_id (s : EditorState) (id : Nat) :
    (setActive s (some id)).tabs.map Tab.id = s.tabs.map Tab.id := by
  obtain ⟨tb, m, r, pr, hset, hids⟩ := setActive_eq s id
  rw [hset]
  exact hids

theorem find?_of_first_match {α : Type} (p : α → Bool) :
    ∀ (l : List α) (i : Nat) (h : i < l.length), p l[i] = true →
      (∀ j (hj : j < i), ¬ p l[j] = true) →
      l.find? p = some l[i] := by
  intro l
  induction l with
  | nil =>
    intro i h
    simp at h
  | cons a t ih =>
    intro i h hp hmin
    cases i with
    | zero =>
      rw [List.find?_cons_of_pos _ (by simpa using hp)]
      simp
    | succ j =>
      have ha : ¬ p a = true := by
        have := hmin 0 (Nat.succ_pos j)
        simpa using this
      rw [List.find?_cons_of_neg _ (by simpa using ha)]
      have hj : j < t.length := by simpa using h
      have hres := ih j hj (by simpa using hp)
        (fun k hk => by
          have := hmin (k + 1) (by omega)
          simpa using this)
      rw [hres]
      simp

theorem find?_eq_of_findIdx? {α : Type} (p : α → Bool) (l : List α) (i : Nat)
    (hf : l.findIdx? p = some i) : ∃ x, l[i]? = some x ∧ l.find? p = some x := by
  obtain ⟨h, hp, hmin⟩ := List.findIdx?_eq_some_iff_getElem.mp hf
  exact ⟨l[i], by simp [List.getElem?_eq_getElem h],
    find?_of_first_match p l i h hp hmin⟩

/-- `pushClosedHistory` in record normal form. -/
theorem pushClosedHistory_eq (s : EditorState) (e : StackEntry) :
    pushClosedHistory s e =
      { s with closedHistory := (mkHistRec s e :: s.closedHistory).take MAX_HISTORY } := by
  have h := pushClosedHistory_closedHistory s e
  unfold pushClosedHistory at h ⊢
  dsimp only at h ⊢
  rw [h]

/-- `closeTab` commits a pending rename first, so it factors through
`commitRename`. -/
theorem closeTab_commitRename (s : EditorState) (id : Nat) :
    closeTab s id = closeTab (commitRename s) id := by
  obtain ⟨tb, hc, -⟩ := commitRename_eq s
  conv_rhs => rw [closeTab]
  rw [commitRename_none (by rw [hc])]
  rw [closeTab]

/-- `createTab` likewise factors through `commitRename`. -/
theorem createTab_commitRename (s : EditorState) (n l v c : String) :
    createTab s n l v c = createTab (commitRename s) n l v c := by
  obtain ⟨tb, hc, -⟩ := commitRename_eq s
  conv_rhs => rw [createTab]
  rw [commitRename_none (by rw [hc])]
  rw [createTab]

/-- Normal form of the `closeTab` sole-tab branch (editor.js lines 434-454),
for states with no rename in progress. -/
theorem closeTab_single (s : EditorState) (id : Nat)
    (hren : s.renameState = none) (hlen : s.tabs.length = 1) :
    closeTab s id =
      setActive
        { s with
            closedStack := s.closedStack ++
              [⟨getTab s id, lookupA s.store id, s.nextId, s.now⟩],
            closedHistory :=
              (mkHistRecN s.now ⟨getTab s id, lookupA s.store id, s.nextId, s.now⟩ ::
                s.closedHistory).take MAX_HISTORY,
            store := eraseA s.store id,
            nextId := s.nextId + 2,
            tabs := [⟨s.nextId + 1, "",
              jsOr ((getTab s id).map Tab.language) "markdown",
              uriFor (s.nextId + 1),
              normalizeColorOpt ((getTab s id).map Tab.color), false⟩] }
        (some (s.nextId + 1)) := by
  unfold closeTab
  rw [commitRename_none hren, if_pos hlen]
  simp only [freshId]
  rw [pushClosedHistory_eq]
  rfl

/-- Normal form of the `closeTab` multi-tab branch (editor.js lines 456-488),
for states with no rename in progress.  `content?` is the captured content
(live model first, storage otherwise); the closed tab `t` is pushed on both
stacks, its keys are dropped, and if the active tab was closed, the tab now
at the same index (or, if there is none, the previous index) is activated. -/
theorem closeTab_multi (s : EditorState) (id idx : Nat) (t : Tab)
    (hren : s.renameState = none)
    (hne1 : s.tabs.length ≠ 1)
    (hf : s.tabs.findIdx? (fun tb => tb.id == id) = some idx)
    (hget : getTab s id = some t) :
    closeTab s id =
      (let content? : Option String :=
        match lookupA s.models id with
        | some v => some v
        | none => lookupA s.store id
      let hist : StackEntry := ⟨some t, content?, s.nextId, s.now⟩
      let s₁ : EditorState :=
        { s with models := eraseA s.models id, store := eraseA s.store id,
                 closedStack := s.closedStack ++ [hist],
                 closedHistory := (mkHistRecN s.now hist :: s.closedHistory).take MAX_HISTORY,
                 nextId := s.nextId + 1,
                 tabs := s.tabs.eraseIdx idx }
      if id = s.activeTabId then
        match (match s₁.tabs[idx]? with
               | some nx => some nx
               | none => s₁.tabs[idx - 1]?) with
        | some next => setActive s₁ (some next.id)
        | none => s₁
      else s₁) := by
  unfold closeTab
  rw [commitRename_none hren, if_neg hne1, hf]
  dsimp only
  have hget' :
      getTab { s with models := eraseA s.models id, store := eraseA s.store id } id =
        some t := hget
  rw [hget']
  simp only [freshId]
  rw [pushClosedHistory_eq]
  rfl

theorem createTab_tabs_length (s : EditorState) (n l v c : String) :
    (createTab s n l v c).tabs.length = s.tabs.length + 1 := by
  unfold createTab
  obtain ⟨tb₀, hc, hi⟩ := commitRename_eq s
  rw [hc]
  simp only [freshId]
  rw [setActive_tabs_length]
  dsimp only
  rw [List.length_append, map_id_length hi]
  rfl

theorem closeTab_notfound (s : EditorState) (id : Nat)
    (hren : s.renameState = none) (hne1 : s.tabs.length ≠ 1)
    (hf : s.tabs.findIdx? (fun tb => tb.id == id) = none) :
    closeTab s id = s := by
  unfold closeTab
  rw [commitRename_none hren, if_neg hne1, hf]

theorem closeTab_length (s : EditorState) (id : Nat) (h : 1 ≤ s.tabs.length) :
    1 ≤ (closeTab s id).tabs.length := by
  rw [closeTab_commitRename]
  obtain ⟨tb₀, hc, hi⟩ := commitRename_eq s
  have hren : (commitRename s).renameState = none := by rw [hc]
  have hlen0 : (commitRename s).tabs.length = s.tabs.length := by
    rw [hc]
    exact map_id_length hi
  by_cases h1 : (commitRename s).tabs.length = 1
  · rw [closeTab_single (commitRename s) id hren h1, setActive_tabs_length]
    simp
  · cases hfi : (commitRename s).tabs.findIdx? (fun tb => tb.id == id) with
    | none =>
      rw [closeTab_notfound (commitRename s) id hren h1 hfi]
      omega
    | some idx =>
      obtain ⟨t, hx, hfind⟩ := find?_eq_of_findIdx? _ _ _ hfi
      have hidx : idx < (commitRename s).tabs.length := by
        obtain ⟨hlt, -⟩ := List.findIdx?_eq_some_iff_findIdx_eq.mp hfi
        exact hlt
      rw [closeTab_multi (commitRename s) id idx t hren h1 hfi hfind]
      dsimp only
      split
      · split
        · rw [setActive_tabs_length]
          dsimp only
          rw [List.length_eraseIdx_of_lt hidx]
          omega
        · dsimp only
          rw [List.length_eraseIdx_of_lt hidx]
          omega
      · dsimp only
        rw [List.length_eraseIdx_of_lt hidx]
        omega

inductive RegOp where
  | create (name language value color : String)
  | close (id : Nat)

def applyRegOp (s : EditorState) : RegOp → EditorState
  | .create n l v c => createTab s n l v c
  | .close id => closeTab s id

def applyRegOps (s : EditorState) (ops : List RegOp) : EditorState :=
  ops.foldl applyRegOp s

theorem applyRegOp_length (s : EditorState) (op : RegOp) (h : 1 ≤ s.tabs.length) :
    1 ≤ (applyRegOp s op).tabs.length := by
  cases op with
  | create n l v c =>
    rw [applyRegOp, createTab_tabs_length]
    omega
  | close id => exact closeTab_length s id h

theorem applyRegOps_length (ops : List RegOp) :
    ∀ s : EditorState, 1 ≤ s.tabs.length → 1 ≤ (applyRegOps s ops).tabs.length := by
  induction ops with
  | nil => intro s h; exact h
  | cons op rest ih =>
    intro s h
    exact ih (applyRegOp s op) (applyRegOp_length s op h)

theorem initializeEditor_length (rawTabs : List (Option RawTab))
    (storedActive : Option Nat) (storedLang : Option String)
    (storedHistory : List HistRec) (store0 : List (Nat × String))
    (startId clock : Nat) :
    1 ≤ (initializeEditor rawTabs storedActive storedLang storedHistory
          store0 startId clock).tabs.length := by
  unfold initializeEditor
  dsimp only
  cases hts : (normalizeStoredTabs startId rawTabs.reduceOption).1 with
  | nil =>
    dsimp only
    rw [setActive_tabs_length]
    split
    · rename_i t hg
      obtain ⟨m, hm⟩ := ensureModel_eq _ t
      rw [hm]
      simp
    · simp
  | cons t0 rest =>
    dsimp only
    rw [setActive_tabs_length]
    split
    · rename_i t hg
      obtain ⟨m, hm⟩ := ensureModel_eq _ t
      rw [hm]
      simp
    · simp

theorem setActive_tabs_of_renameNone (s : EditorState) (id : Nat)
    (hren : s.renameState = none) : (setActive s (some id)).tabs = s.tabs := by
  unfold setActive
  dsimp only
  rw [hren]
  dsimp only
  split
  · rfl
  · rename_i t hg
    obtain ⟨m, hm⟩ := ensureModel_eq _ t
    rw [hm]
    split
    · obtain ⟨r, hr⟩ := startInlineRename_eq _ t
      rw [hr]
    · rfl

/-! ## Claim C1

The `|registry| ≥ 1` invariant holds, but the claim's description of the
replacement tab is wrong about the color: the source gives the fresh tab
`normalizeColor(t?.color)` — the *closed tab's* color — not the default
(editor.js line 448). -/

/-- C1 (counterexample): closing the sole tab of a registry whose tab is
colored `#FF3B30` produces a replacement tab colored `#FF3B30`, not the
default `#8E8E93` — refuting "closeTab on the sole remaining tab replaces
it with a fresh default tab (…, default color)". -/
theorem claim_C1_counterexample :
    ((closeTab (setTabColor (initializeEditor [] none none [] [] 1 0) 1 "#FF3B30") 1).tabs.map
        Tab.color = ["#FF3B30"]) ∧
    "#FF3B30" ≠ DEFAULT_TAG_COLOR := by
  exact ⟨by decide, by decide⟩

/-- C1 (amended): after initialization, and after any sequence of
`createTab`/`closeTab` operations applied to a state whose registry is
nonempty, the registry still contains at least one tab; in particular
`closeTab` on the sole remaining tab replaces it with a fresh default tab
whose name is empty, whose language is the closed tab's language (an empty
language falling back to `markdown`), and whose color is the closed tab's
normalized color. -/
theorem claim_C1_registry_never_empty :
    (∀ (rawTabs : List (Option RawTab)) (act : Option Nat) (lang : Option String)
        (hist : List HistRec) (st : List (Nat × String)) (sid clk : Nat)
        (ops : List RegOp),
      1 ≤ (applyRegOps (initializeEditor rawTabs act lang hist st sid clk) ops).tabs.length) ∧
    (∀ s : EditorState, 1 ≤ s.tabs.length →
      ∀ ops : List RegOp, 1 ≤ (applyRegOps s ops).tabs.length) ∧
    (∀ (s : EditorState) (t : Tab), s.renameState = none → s.tabs = [t] →
      (closeTab s t.id).tabs =
        [⟨s.nextId + 1, "", jsOr (some t.language) "markdown",
          uriFor (s.nextId + 1), normalizeColorOpt (some t.color), false⟩]) := by
  refine ⟨?_, ?_, ?_⟩
  · intro rawTabs act lang hist st sid clk ops
    exact applyRegOps_length ops _
      (initializeEditor_length rawTabs act lang hist st sid clk)
  · intro s h ops
    exact applyRegOps_length ops s h
  · intro s t hren htabs
    have hg : getTab s t.id = some t := by
      unfold getTab
      rw [htabs]
      simp
    rw [closeTab_single s t.id hren (by rw [htabs]; rfl)]
    rw [setActive_tabs_of_renameNone _ _ (by rw [hren])]
    dsimp only
    rw [hg]
    simp [Option.map_some']

theorem claim_C1_witness :
    1 ≤ (applyRegOps (initializeEditor [] none none [] [] 1 0)
        [RegOp.close 1, RegOp.create "A" "markdown" "x" "#FF3B30"]).tabs.length ∧
    (closeTab (initializeEditor [] none none [] [] 1 0) 1).tabs =
      [⟨(initializeEditor [] none none [] [] 1 0).nextId + 1, "",
        jsOr (some "markdown") "markdown",
        uriFor ((initializeEditor [] none none [] [] 1 0).nextId + 1),
        normalizeColorOpt (some DEFAULT_TAG_COLOR), false⟩] := by
  constructor
  · exact claim_C1_registry_never_empty.2.1 (initializeEditor [] none none [] [] 1 0)
      (by decide) [RegOp.close 1, RegOp.create "A" "markdown" "x" "#FF3B30"]
  · exact claim_C1_registry_never_empty.2.2 (initializeEditor [] none none [] [] 1 0)
      ⟨1, "", "markdown", "inmemory://1", DEFAULT_TAG_COLOR, false⟩ (by decide) (by decide)

/-! ## Claim C7 -/

/-- C7: closing the active tab when at least one other tab remains removes
exactly the tab at the active tab's index, and activates the tab that
shifted into that index — or, when the closed tab was last, the tab at the
previous index.  (Instantiated at `[A,B,C]` with `B` active, this gives
registry `[A,C]` and active `C`; see the witness.) -/
theorem claim_C7_close_active_next (s : EditorState) (idx : Nat) (t : Tab)
    (hren : s.renameState = none)
    (hlen : 2 ≤ s.tabs.length)
    (hf : s.tabs.findIdx? (fun tb => tb.id == s.activeTabId) = some idx)
    (hget : getTab s s.activeTabId = some t) :
    (closeTab s s.activeTabId).tabs = s.tabs.eraseIdx idx ∧
    ∃ next : Tab,
      ((s.tabs.eraseIdx idx)[idx]? = some next ∨
        ((s.tabs.eraseIdx idx)[idx]? = none ∧
          (s.tabs.eraseIdx idx)[idx - 1]? = some next)) ∧
      (closeTab s s.activeTabId).activeTabId = next.id := by
  have hidx : idx < s.tabs.length := by
    obtain ⟨hlt, -⟩ := List.findIdx?_eq_some_iff_findIdx_eq.mp hf
    exact hlt
  rw [closeTab_multi s s.activeTabId idx t hren (by omega) hf hget]
  dsimp only
  rw [if_pos rfl]
  cases h0 : (s.tabs.eraseIdx idx)[idx]? with
  | some nx =>
    dsimp only
    constructor
    · rw [setActive_tabs_of_renameNone _ _ (by rw [hren])]
    · exact ⟨nx, Or.inl rfl, setActive_activeTabId _ _⟩
  | none =>
    cases h1 : (s.tabs.eraseIdx idx)[idx - 1]? with
    | some nx =>
      dsimp only
      constructor
      · rw [setActive_tabs_of_renameNone _ _ (by rw [hren])]
      · exact ⟨nx, Or.inr ⟨rfl, rfl⟩, setActive_activeTabId _ _⟩
    | none =>
      exfalso
      rw [List.getElem?_eq_none_iff, List.length_eraseIdx_of_lt hidx] at h0 h1
      omega

def stateABC : EditorState :=
  setActive
    (closeTab
      (createTab
        (createTab
          (createTab (initializeEditor [] none none [] [] 1 0)
            "A" "markdown" "a" DEFAULT_TAG_COLOR)
          "B" "markdown" "b" DEFAULT_TAG_COLOR)
        "C" "markdown" "c" DEFAULT_TAG_COLOR)
      1)
    (some 3)

theorem claim_C7_witness :
    (closeTab stateABC stateABC.activeTabId).tabs = stateABC.tabs.eraseIdx 1 ∧
    ∃ next : Tab,
      ((stateABC.tabs.eraseIdx 1)[1]? = some next ∨
        ((stateABC.tabs.eraseIdx 1)[1]? = none ∧
          (stateABC.tabs.eraseIdx 1)[1 - 1]? = some next)) ∧
      (closeTab stateABC stateABC.activeTabId).activeTabId = next.id :=
  claim_C7_close_active_next stateABC 1
    ⟨3, "B", "markdown", "inmemory://3", DEFAULT_TAG_COLOR, false⟩
    (by decide) (by decide) (by decide) (by decide)

/-! ## Claim C2 -/

/-- The activation invariant: the active tab id resolves to a registry
member. -/
def activeValid (s : EditorState) : Prop :=
  ∃ t ∈ s.tabs, t.id = s.activeTabId

instance (s : EditorState) : Decidable (activeValid s) := by
  unfold activeValid
  infer_instance

/-- The registry/activation operations quantified over in claim C2. -/
inductive UIOp where
  | create (name language value color : String)
  | createDefault
  | close (id : Nat)
  | activate (id : Nat)
  | cycleNext
  | cyclePrev
  | jump (n : Nat)

def applyUIOp (s : EditorState) : UIOp → EditorState
  | .create n l v c => createTab s n l v c
  | .createDefault => createTabDefault s
  | .close id => closeTab s id
  | .activate id => setActive s (some id)
  | .cycleNext => cycleNext s
  | .cyclePrev => cyclePrev s
  | .jump n => jumpTab s n

theorem mem_ids_iff (s : EditorState) (id : Nat) :
    id ∈ s.tabs.map Tab.id ↔ ∃ t ∈ s.tabs, t.id = id := by
  simp [List.mem_map, eq_comm]

theorem activeValid_setActive (s : EditorState) (id : Nat)
    (h : ∃ t ∈ s.tabs, t.id = id) : activeValid (setActive s (some id)) := by
  unfold activeValid
  rw [setActive_activeTabId]
  rw [← mem_ids_iff, setActive_tabs_map_id, mem_ids_iff]
  exact h

theorem activeValid_createTab (s : EditorState) (n l v c : String) :
    activeValid (createTab s n l v c) := by
  unfold createTab
  obtain ⟨tb₀, hc, hi⟩ := commitRename_eq s
  rw [hc]
  simp only [freshId]
  apply activeValid_setActive
  exact ⟨_, List.mem_append_right tb₀ (List.mem_singleton.mpr rfl), rfl⟩

theorem mem_eraseIdx_of_ne {α : Type} :
    ∀ (l : List α) (i : Nat) (x : α), x ∈ l →
      (∀ h : i < l.length, l[i] ≠ x) → x ∈ l.eraseIdx i := by
  intro l
  induction l with
  | nil =>
    intro i x hx
    exact absurd hx (List.not_mem_nil x)
  | cons a t ih =>
    intro i x hx hne
    cases i with
    | zero =>
      rw [List.eraseIdx_cons_zero]
      rcases List.mem_cons.mp hx with rfl | hx'
      · exact absurd rfl (hne (by simp))
      · exact hx'
    | succ j =>
      rw [List.eraseIdx_cons_succ]
      rcases List.mem_cons.mp hx with rfl | hx'
      · exact List.mem_cons_self _ _
      · refine List.mem_cons_of_mem a (ih j x hx' ?_)
        intro hj
        have := hne (by simpa using Nat.succ_lt_succ hj)
        simpa using this

theorem activeValid_closeTab (s : EditorState) (id : Nat)
    (h : activeValid s) : activeValid (closeTab s id) := by
  rw [closeTab_commitRename]
  obtain ⟨tb₀, hc, hi⟩ := commitRename_eq s
  have hren : (commitRename s).renameState = none := by rw [hc]
  have hvalid' : activeValid (commitRename s) := by
    obtain ⟨t, ht, hid⟩ := h
    unfold activeValid
    rw [← mem_ids_iff, hc]
    dsimp only
    rw [hi, mem_ids_iff]
    exact ⟨t, ht, hid⟩
  by_cases h1 : (commitRename s).tabs.length = 1
  · rw [closeTab_single (commitRename s) id hren h1]
    apply activeValid_setActive
    exact ⟨_, List.mem_singleton.mpr rfl, rfl⟩
  · cases hfi : (commitRename s).tabs.findIdx? (fun tb => tb.id == id) with
    | none =>
      rw [closeTab_notfound (commitRename s) id hren h1 hfi]
      exact hvalid'
    | some idx =>
      have hidx : idx < (commitRename s).tabs.length := by
        obtain ⟨hlt, -⟩ := List.findIdx?_eq_some_iff_findIdx_eq.mp hfi
        exact hlt
      have hpi : ((commitRename s).tabs[idx]).id = id := by
        obtain ⟨h', hp, -⟩ := List.findIdx?_eq_some_iff_getElem.mp hfi
        simpa using hp
      obtain ⟨t, hx, hfind⟩ := find?_eq_of_findIdx? _ _ _ hfi
      rw [closeTab_multi (commitRename s) id idx t hren h1 hfi hfind]
      dsimp only
      by_cases hact : id = (commitRename s).activeTabId
      · rw [if_pos hact]
        cases h0 : ((commitRename s).tabs.eraseIdx idx)[idx]? with
        | some nx =>
          dsimp only
          exact activeValid_setActive _ _ ⟨nx, List.getElem?_mem h0, rfl⟩
        | none =>
          cases h2 : ((commitRename s).tabs.eraseIdx idx)[idx - 1]? with
          | some nx =>
            dsimp only
            exact activeValid_setActive _ _ ⟨nx, List.getElem?_mem h2, rfl⟩
          | none =>
            exfalso
            rw [List.getElem?_eq_none_iff, List.length_eraseIdx_of_lt hidx] at h0 h2
            omega
      · rw [if_neg hact]
        obtain ⟨ta, hta, htaid⟩ := hvalid'
        refine ⟨ta, ?_, htaid⟩
        refine mem_eraseIdx_of_ne _ idx ta hta ?_
        intro hlt heq
        apply hact
        rw [← htaid, ← heq, hpi]

theorem activeValid_cycleNext (s : EditorState) (h : activeValid s) :
    activeValid (cycleNext s) := by
  unfold cycleNext
  split
  · exact h
  · dsimp only
    split
    · rename_i nx h0
      exact activeValid_setActive _ _ ⟨nx, List.getElem?_mem h0, rfl⟩
    · exact h

theorem activeValid_cyclePrev (s : EditorState) (h : activeValid s) :
    activeValid (cyclePrev s) := by
  unfold cyclePrev
  split
  · exact h
  · dsimp only
    split
    · rename_i nx h0
      exact activeValid_setActive _ _ ⟨nx, List.getElem?_mem h0, rfl⟩
    · exact h

theorem activeValid_jumpTab (s : EditorState) (n : Nat) (h : activeValid s) :
    activeValid (jumpTab s n) := by
  unfold jumpTab
  split
  · split
    · rename_i t h0
      exact activeValid_setActive _ _ ⟨t, List.mem_of_getLast?_eq_some h0, rfl⟩
    · exact h
  · split
    · rename_i t h0
      exact activeValid_setActive _ _ ⟨t, List.getElem?_mem h0, rfl⟩
    · exact h

theorem activeValid_initializeEditor (rawTabs : List (Option RawTab))
    (storedActive : Option Nat) (storedLang : Option String)
    (storedHistory : List HistRec) (store0 : List (Nat × String))
    (startId clock : Nat) :
    activeValid (initializeEditor rawTabs storedActive storedLang storedHistory
      store0 startId clock) := by
  unfold initializeEditor
  dsimp only
  cases hts : (normalizeStoredTabs startId rawTabs.reduceOption).1 with
  | nil =>
    dsimp only
    split
    · rename_i t hg
      obtain ⟨m, hm⟩ := ensureModel_eq _ t
      rw [hm]
      apply activeValid_setActive
      exact ⟨_, List.mem_singleton.mpr rfl, rfl⟩
    · apply activeValid_setActive
      exact ⟨_, List.mem_singleton.mpr rfl, rfl⟩
  | cons t0 rest =>
    dsimp only
    cases storedActive with
    | none =>
      dsimp only
      split
      · rename_i t hg
        obtain ⟨m, hm⟩ := ensureModel_eq _ t
        rw [hm]
        apply activeValid_setActive
        exact ⟨t0, List.mem_cons_self _ _, rfl⟩
      · apply activeValid_setActive
        exact ⟨t0, List.mem_cons_self _ _, rfl⟩
    | some a =>
      dsimp only
      by_cases hf : ((t0 :: rest).find? (fun t => t.id == a)).isSome = true
      · rw [if_pos hf]
        obtain ⟨x, hx⟩ := Option.isSome_iff_exists.mp hf
        have hmem := List.mem_of_find?_eq_some hx
        have hid : x.id = a := by simpa using List.find?_some hx
        split
        · rename_i t hg
          obtain ⟨m, hm⟩ := ensureModel_eq _ t
          rw [hm]
          exact activeValid_setActive _ _ ⟨x, hmem, hid⟩
        · exact activeValid_setActive _ _ ⟨x, hmem, hid⟩
      · rw [if_neg hf]
        split
        · rename_i t hg
          obtain ⟨m, hm⟩ := ensureModel_eq _ t
          rw [hm]
          exact activeValid_setActive _ _ ⟨t0, List.mem_cons_self _ _, rfl⟩
        · exact activeValid_setActive _ _ ⟨t0, List.mem_cons_self _ _, rfl⟩

/-- C2: (1) after initialization the active tab id is the id of a tab in
the registry; (2) every registry/activation operation (`createTab`,
`closeTab`, `setActive` on a registry member, cycle next/previous, numeric
jump) preserves that property; (3) at startup, a persisted active id that
resolves to no stored tab falls back to the first tab of the registry. -/
theorem claim_C2_active_resolves :
    (∀ (rawTabs : List (Option RawTab)) (act : Option Nat) (lang : Option String)
        (hist : List HistRec) (st : List (Nat × String)) (sid clk : Nat),
      activeValid (initializeEditor rawTabs act lang hist st sid clk)) ∧
    (∀ (s : EditorState) (op : UIOp), activeValid s →
      (∀ id, op = UIOp.activate id → ∃ t ∈ s.tabs, t.id = id) →
      activeValid (applyUIOp s op)) ∧
    (∀ (rawTabs : List (Option RawTab)) (a : Nat) (lang : Option String)
        (hist : List HistRec) (st : List (Nat × String)) (sid clk : Nat)
        (t0 : Tab) (rest : List Tab),
      (normalizeStoredTabs sid rawTabs.reduceOption).1 = t0 :: rest →
      (∀ t ∈ t0 :: rest, t.id ≠ a) →
      (initializeEditor rawTabs (some a) lang hist st sid clk).activeTabId = t0.id) := by
  refine ⟨activeValid_initializeEditor, ?_, ?_⟩
  · intro s op hvalid hact
    cases op with
    | create n l v c => exact activeValid_createTab s n l v c
    | createDefault => exact activeValid_createTab s _ _ _ _
    | close id => exact activeValid_closeTab s id hvalid
    | activate id => exact activeValid_setActive s id (hact id rfl)
    | cycleNext => exact activeValid_cycleNext s hvalid
    | cyclePrev => exact activeValid_cyclePrev s hvalid
    | jump n => exact activeValid_jumpTab s n hvalid
  · intro rawTabs a lang hist st sid clk t0 rest hts hne
    unfold initializeEditor
    dsimp only
    rw [hts]
    dsimp only
    have hf : ((t0 :: rest).find? (fun t => t.id == a)).isSome = false := by
      cases hfind : (t0 :: rest).find? (fun t => t.id == a) with
      | none => rfl
      | some x =>
        exact absurd (by simpa using List.find?_some hfind)
          (hne x (List.mem_of_find?_eq_some hfind))
    rw [if_neg (by simp [hf])]
    split
    · rename_i t hg
      obtain ⟨m, hm⟩ := ensureModel_eq _ t
      rw [hm]
      exact setActive_activeTabId _ _
    · exact setActive_activeTabId _ _

def rawStored (i : Nat) (nm : String) : RawTab :=
  ⟨some i, some nm, some "javascript", none, none, none⟩

theorem claim_C2_witness :
    activeValid (initializeEditor [] none none [] [] 1 0) ∧
    activeValid (applyUIOp stateABC (UIOp.close 3)) ∧
    activeValid (applyUIOp stateABC (UIOp.activate 2)) ∧
    (initializeEditor [some (rawStored 10 "T1"), none, some (rawStored 11 "T2")]
        (some 99) none [] [] 100 0).activeTabId = 10 := by
  refine ⟨claim_C2_active_resolves.1 [] none none [] [] 1 0, ?_, ?_, ?_⟩
  · exact claim_C2_active_resolves.2.1 stateABC (UIOp.close 3) (by decide)
      (by intro id h; cases h)
  · exact claim_C2_active_resolves.2.1 stateABC (UIOp.activate 2) (by decide)
      (by
        intro id h
        cases h
        exact ⟨⟨2, "A", "markdown", "inmemory://2", DEFAULT_TAG_COLOR, false⟩,
          by decide, rfl⟩)
  · exact claim_C2_active_resolves.2.2
      [some (rawStored 10 "T1"), none, some (rawStored 11 "T2")] 99 none [] [] 100 0
      ⟨10, "T1", "javascript", "inmemory://10", DEFAULT_TAG_COLOR, false⟩
      [⟨11, "T2", "javascript", "inmemory://11", DEFAULT_TAG_COLOR, false⟩]
      (by decide) (by decide)

/-! ## Claims C5 and C4: the save scheduler

The model is untimed: "within the 700 ms debounce window" corresponds to a
burst of `contentChange` events with no intervening `fireTimer`, and the
timer firing is the explicit `fireTimer` event. -/

def keyCount (l : List (Nat × String)) (k : Nat) : Nat :=
  (l.filter (fun p => p.1 == k)).length

/-- At most one pending debounce timer per tab id. -/
def atMostOnePending (s : EditorState) : Prop :=
  ∀ k, keyCount s.saveTimeouts k ≤ 1

theorem keyCount_insertA (l : List (Nat × String)) (k : Nat) (v : String) (k' : Nat) :
    keyCount (insertA l k v) k' = if k' = k then 1 else keyCount l k' := by
  by_cases h : k' = k
  · subst h
    rw [if_pos rfl]
    unfold keyCount insertA
    rw [List.filter_cons_of_pos (by simp), List.filter_filter]
    have : ∀ p ∈ l, ¬((p.1 == k') && !(p.1 == k')) = true := by
      intro p _
      cases hp : (p.1 == k') <;> simp [hp]
    rw [List.filter_eq_nil_iff.mpr this]
    rfl
  · rw [if_neg h]
    unfold keyCount insertA
    rw [List.filter_cons_of_neg (by simpa using Ne.symm h), List.filter_filter]
    congr 1
    refine List.filter_congr ?_
    intro p _
    cases hp : (p.1 == k') with
    | false => simp [hp]
    | true =>
      have : p.1 = k' := by simpa using hp
      simp [hp, this, h]

theorem keyCount_eraseA (l : List (Nat × String)) (k k' : Nat) :
    keyCount (eraseA l k) k' = if k' = k then 0 else keyCount l k' := by
  by_cases h : k' = k
  · subst h
    rw [if_pos rfl]
    unfold keyCount eraseA
    rw [List.filter_filter]
    have : ∀ p ∈ l, ¬((p.1 == k') && !(p.1 == k')) = true := by
      intro p _
      cases hp : (p.1 == k') <;> simp [hp]
    rw [List.filter_eq_nil_iff.mpr this]
    rfl
  · rw [if_neg h]
    unfold keyCount eraseA
    rw [List.filter_filter]
    congr 1
    refine List.filter_congr ?_
    intro p _
    cases hp : (p.1 == k') with
    | false => simp [hp]
    | true =>
      have : p.1 = k' := by simpa using hp
      simp [hp, this, h]

theorem contentChange_saveTimeouts (s : EditorState) (v : String) :
    (contentChange s v).saveTimeouts = insertA s.saveTimeouts s.activeTabId v := by
  unfold contentChange
  dsimp only
  split
  · rename_i t hg
    split
    · unfold setTabDirty scheduleSave
      dsimp only
      rw [lookupA_insertA_self]
    · unfold scheduleSave
      dsimp only
      rw [lookupA_insertA_self]
  · unfold scheduleSave
    dsimp only
    rw [lookupA_insertA_self]

theorem fireTimer_saveTimeouts (s : EditorState) (k : Nat) :
    (fireTimer s k).saveTimeouts = s.saveTimeouts ∨
    (fireTimer s k).saveTimeouts = eraseA s.saveTimeouts k := by
  unfold fireTimer
  split
  · exact Or.inl rfl
  · exact Or.inr rfl

theorem find?_updateFirstTab_self (id : Nat) (f : Tab → Tab)
    (hf : ∀ t, (f t).id = t.id) :
    ∀ (l : List Tab) (t : Tab), l.find? (fun x => x.id == id) = some t →
      (updateFirstTab l id f).find? (fun x => x.id == id) = some (f t) := by
  intro l
  induction l with
  | nil =>
    intro t ht
    simp at ht
  | cons a rest ih =>
    intro t ht
    by_cases ha : (a.id == id) = true
    · rw [show ((a :: rest).find? fun x => x.id == id) = some a from
        List.find?_cons_of_pos rest ha] at ht
      obtain rfl := Option.some.inj ht
      unfold updateFirstTab
      rw [if_pos ha]
      have hfa : ((f a).id == id) = true := by rw [hf]; exact ha
      exact List.find?_cons_of_pos rest hfa
    · rw [show ((a :: rest).find? fun x => x.id == id) =
          rest.find? (fun x => x.id == id) from
        List.find?_cons_of_neg rest (by simpa using ha)] at ht
      unfold updateFirstTab
      rw [if_neg ha]
      rw [show ((a :: updateFirstTab rest id f).find? fun x => x.id == id) =
          (updateFirstTab rest id f).find? (fun x => x.id == id) from
        List.find?_cons_of_neg _ (by simpa using ha)]
      exact ih t ht

/-- One content-change step: the active buffer takes the typed value, the
tab is marked dirty, and the (re)scheduled timer — replacing any earlier one
for the active id — holds exactly the new value; no storage write happens. -/
theorem contentChange_spec (s : EditorState) (v : String) (t : Tab)
    (hget : getTab s s.activeTabId = some t) :
    ∃ tb, contentChange s v =
      { s with models := insertA s.models s.activeTabId v,
               tabs := tb,
               saveTimeouts := insertA s.saveTimeouts s.activeTabId v } ∧
      tb.map Tab.id = s.tabs.map Tab.id ∧
      ∃ t', tb.find? (fun x => x.id == s.activeTabId) = some t' ∧ t'.dirty = true := by
  have hid : t.id = s.activeTabId := by
    simpa using List.find?_some hget
  unfold contentChange
  dsimp only
  have hget' :
      getTab { s with models := insertA s.models s.activeTabId v } s.activeTabId =
        some t := hget
  rw [hget']
  dsimp only
  by_cases hd : t.dirty = false
  · rw [if_pos hd]
    unfold setTabDirty scheduleSave
    dsimp only
    rw [lookupA_insertA_self]
    refine ⟨updateFirstTab s.tabs t.id (fun tb => { tb with dirty := true }), ?_, ?_, ?_⟩
    · rfl
    · exact updateFirstTab_map_id t.id
        (fun tb => { tb with dirty := true }) (fun _ => rfl) s.tabs
    · refine ⟨{ t with dirty := true }, ?_, rfl⟩
      have hget2 : s.tabs.find? (fun x => x.id == t.id) = some t := by
        rw [hid]
        exact hget
      have hres := find?_updateFirstTab_self t.id
        (fun tb => { tb with dirty := true }) (fun _ => rfl) s.tabs t hget2
      conv_lhs => rw [← hid]
      exact hres
  · rw [if_neg hd]
    unfold scheduleSave
    dsimp only
    rw [lookupA_insertA_self]
    exact ⟨s.tabs, rfl, rfl, t, hget, by simpa using hd⟩

def applyBurst (s : EditorState) (vs : List String) : EditorState :=
  vs.foldl contentChange s

theorem burst_spec :
    ∀ (vs : List String) (v₀ : String) (s : EditorState) (t : Tab),
      vs.getLast? = some v₀ →
      getTab s s.activeTabId = some t →
      (applyBurst s vs).contentWriteLog = s.contentWriteLog ∧
      (applyBurst s vs).activeTabId = s.activeTabId ∧
      (applyBurst s vs).store = s.store ∧
      lookupA (applyBurst s vs).saveTimeouts s.activeTabId = some v₀ ∧
      (∃ t', getTab (applyBurst s vs) s.activeTabId = some t' ∧ t'.dirty = true) := by
  intro vs
  induction vs with
  | nil =>
    intro v₀ s t hlast
    simp at hlast
  | cons v vs' ih =>
    intro v₀ s t hlast hget
    obtain ⟨tb, hcc, hids, t', hfind, hdirty⟩ := contentChange_spec s v t hget
    have hstep : applyBurst s (v :: vs') = applyBurst (contentChange s v) vs' := rfl
    cases vs' with
    | nil =>
      obtain rfl : v = v₀ := by simpa using hlast
      rw [hstep]
      show (contentChange s v).contentWriteLog = s.contentWriteLog ∧ _
      rw [hcc]
      refine ⟨rfl, rfl, rfl, lookupA_insertA_self _ _ _, t', ?_, hdirty⟩
      exact hfind
    | cons w ws =>
      have hlast' : (w :: ws).getLast? = some v₀ := by
        rwa [List.getLast?_cons_cons] at hlast
      have hget2 : getTab (contentChange s v)
          (contentChange s v).activeTabId = some t' := by
        rw [hcc]
        exact hfind
      have hactive : (contentChange s v).activeTabId = s.activeTabId := by
        rw [hcc]
      obtain ⟨hlog, hact, hstore, hpend, hdirty'⟩ :=
        ih v₀ (contentChange s v) t' hlast' hget2
      rw [hstep, hactive] at *
      refine ⟨?_, ?_, ?_, ?_, ?_⟩
      · rw [hlog, hcc]
      · rw [hact, hactive]
      · rw [hstore, hcc]
      · rw [← hactive]
        exact hpend
      · rw [← hactive]
        exact hdirty'

/-- The timer callback for a pending entry: exactly one storage write of the
captured value, the tab marked clean, the timer removed. -/
theorem fire_spec (s : EditorState) (k : Nat) (v : String)
    (hpend : lookupA s.saveTimeouts k = some v) :
    (fireTimer s k).contentWriteLog = (k, v) :: s.contentWriteLog ∧
    lookupA (fireTimer s k).store k = some v ∧
    lookupA (fireTimer s k).saveTimeouts k = none ∧
    (∀ t, getTab s k = some t →
      ∃ t', getTab (fireTimer s k) k = some t' ∧ t'.dirty = false) := by
  unfold fireTimer
  rw [hpend]
  dsimp only
  refine ⟨rfl, lookupA_insertA_self _ _ _, lookupA_eraseA_self _ _, ?_⟩
  intro t hget
  exact ⟨{ t with dirty := false },
    find?_updateFirstTab_self k (fun tb => { tb with dirty := false })
      (fun _ => rfl) s.tabs t hget, rfl⟩

theorem setActive_saveTimeouts (s : EditorState) (id : Nat) :
    (setActive s (some id)).saveTimeouts = s.saveTimeouts := by
  obtain ⟨tb, m, r, pr, hset, -⟩ := setActive_eq s id
  rw [hset]

theorem createTab_saveTimeouts (s : EditorState) (n l v c : String) :
    (createTab s n l v c).saveTimeouts = s.saveTimeouts := by
  unfold createTab
  obtain ⟨tb₀, hc, -⟩ := commitRename_eq s
  rw [hc]
  simp only [freshId]
  rw [setActive_saveTimeouts]

theorem closeTab_saveTimeouts (s : EditorState) (id : Nat) :
    (closeTab s id).saveTimeouts = s.saveTimeouts := by
  rw [closeTab_commitRename]
  obtain ⟨tb₀, hc, hi⟩ := commitRename_eq s
  have hren : (commitRename s).renameState = none := by rw [hc]
  have hst : (commitRename s).saveTimeouts = s.saveTimeouts := by rw [hc]
  by_cases h1 : (commitRename s).tabs.length = 1
  · rw [closeTab_single (commitRename s) id hren h1, setActive_saveTimeouts]
    exact hst
  · cases hfi : (commitRename s).tabs.findIdx? (fun tb => tb.id == id) with
    | none => rw [closeTab_notfound (commitRename s) id hren h1 hfi, hst]
    | some idx =>
      obtain ⟨t, hx, hfind⟩ := find?_eq_of_findIdx? _ _ _ hfi
      rw [closeTab_multi (commitRename s) id idx t hren h1 hfi hfind]
      dsimp only
      split
      · split
        · rw [setActive_saveTimeouts]
          exact hst
        · exact hst
      · exact hst

/-- No registry or activation operation touches the pending-save map: in
particular `closeTab` never cancels a pending timer (the root cause of the
claim-C4 bug). -/
theorem applyUIOp_saveTimeouts (s : EditorState) (op : UIOp) :
    (applyUIOp s op).saveTimeouts = s.saveTimeouts := by
  cases op with
  | create n l v c => exact createTab_saveTimeouts s n l v c
  | createDefault => exact createTab_saveTimeouts s _ _ _ _
  | close id => exact closeTab_saveTimeouts s id
  | activate id => exact setActive_saveTimeouts s id
  | cycleNext =>
    show (cycleNext s).saveTimeouts = s.saveTimeouts
    unfold cycleNext
    split
    · rfl
    · dsimp only
      split
      · rw [setActive_saveTimeouts]
      · rfl
  | cyclePrev =>
    show (cyclePrev s).saveTimeouts = s.saveTimeouts
    unfold cyclePrev
    split
    · rfl
    · dsimp only
      split
      · rw [setActive_saveTimeouts]
      · rfl
  | jump n =>
    show (jumpTab s n).saveTimeouts = s.saveTimeouts
    unfold jumpTab
    split
    · split
      · rw [setActive_saveTimeouts]
      · rfl
    · split
      · rw [setActive_saveTimeouts]
      · rfl

/-! ## Claim C5 -/

/-- C5: (1) a content change replaces any pending timer for the active id,
and a timer fire removes one, so "at most one pending save per tab id" is
preserved; (2) no registry/activation operation adds or removes pending
timers; (3) a burst of content changes performs no storage write, leaves
exactly one pending timer for the active tab holding the last typed value,
and leaves the tab dirty; firing that timer performs exactly one storage
write — of the last value — marks the tab clean, and removes the timer. -/
theorem claim_C5_debounce_single_write :
    (∀ (s : EditorState) (v : String), atMostOnePending s →
      atMostOnePending (contentChange s v)) ∧
    (∀ (s : EditorState) (k : Nat), atMostOnePending s →
      atMostOnePending (fireTimer s k)) ∧
    (∀ (s : EditorState) (op : UIOp),
      (applyUIOp s op).saveTimeouts = s.saveTimeouts) ∧
    (∀ (s : EditorState) (t : Tab) (vs : List String) (v₀ : String),
      getTab s s.activeTabId = some t →
      vs.getLast? = some v₀ →
      (applyBurst s vs).contentWriteLog = s.contentWriteLog ∧
      lookupA (applyBurst s vs).saveTimeouts s.activeTabId = some v₀ ∧
      (∃ t', getTab (applyBurst s vs) s.activeTabId = some t' ∧ t'.dirty = true) ∧
      (fireTimer (applyBurst s vs) s.activeTabId).contentWriteLog =
        (s.activeTabId, v₀) :: s.contentWriteLog ∧
      lookupA (fireTimer (applyBurst s vs) s.activeTabId).store s.activeTabId =
        some v₀ ∧
      lookupA (fireTimer (applyBurst s vs) s.activeTabId).saveTimeouts
        s.activeTabId = none ∧
      (∃ t', getTab (fireTimer (applyBurst s vs) s.activeTabId) s.activeTabId =
          some t' ∧ t'.dirty = false)) := by
  refine ⟨?_, ?_, applyUIOp_saveTimeouts, ?_⟩
  · intro s v h k
    rw [contentChange_saveTimeouts, keyCount_insertA]
    split
    · exact le_refl 1
    · exact h k
  · intro s k h
    rcases fireTimer_saveTimeouts s k with heq | heq
    · intro k'
      rw [heq]
      exact h k'
    · intro k'
      rw [heq, keyCount_eraseA]
      split
      · exact Nat.zero_le 1
      · exact h k'
  · intro s t vs v₀ hget hlast
    obtain ⟨hlog, hact, hstore, hpend, t', hget', hdirty⟩ :=
      burst_spec vs v₀ s t hlast hget
    obtain ⟨flog, fstore, fpend, fdirty⟩ :=
      fire_spec (applyBurst s vs) s.activeTabId v₀ hpend
    refine ⟨hlog, hpend, ⟨t', hget', hdirty⟩, ?_, fstore, fpend, ?_⟩
    · rw [flog, hlog]
    · exact fdirty t' hget'

theorem claim_C5_witness :
    lookupA (applyBurst stateABC ["v1", "v2", "v3"]).saveTimeouts
      stateABC.activeTabId = some "v3" ∧
    (applyBurst stateABC ["v1", "v2", "v3"]).contentWriteLog =
      stateABC.contentWriteLog ∧
    (fireTimer (applyBurst stateABC ["v1", "v2", "v3"]) stateABC.activeTabId).contentWriteLog =
      (stateABC.activeTabId, "v3") :: stateABC.contentWriteLog ∧
    atMostOnePending (contentChange stateABC "x") := by
  have h := claim_C5_debounce_single_write.2.2.2 stateABC
    ⟨3, "B", "markdown", "inmemory://3", DEFAULT_TAG_COLOR, false⟩
    ["v1", "v2", "v3"] "v3" (by decide) (by decide)
  refine ⟨h.2.1, h.1, h.2.2.2.1, ?_⟩
  refine claim_C5_debounce_single_write.1 stateABC "x" ?_
  intro k
  rw [show stateABC.saveTimeouts = [] from by decide]
  simp [keyCount]

/-! ## Claim C4

The source does **not** cancel a closed tab's pending debounce timer:
`closeTab` never touches `saveTimeouts`, and the timer callback
(lines 379-383) writes `localStorage.setItem(modelKey(id), value)` without
checking that the tab still exists.  The spec itself mandates an existence
check and calls any other behavior a bug to fix, so the code is wrong and
the claim describes the intended behavior. -/

/-- C4 (code bug, evaluated at the failing input): with tabs `[A,B,C]`,
`B` active and an edit `"draft!"` pending on `B`'s debounce timer,
`closeTab(B)` leaves the timer pending and deletes `model:B`; when the
timer later fires it performs a storage write that recreates the deleted
`model:B` key with `"draft!"` — contradicting the claim that a late-firing
timer performs no storage write. -/
theorem claim_C4_late_timer_recreates_key :
    lookupA (contentChange stateABC "draft!").saveTimeouts 3 = some "draft!" ∧
    lookupA (closeTab (contentChange stateABC "draft!") 3).saveTimeouts 3 =
      some "draft!" ∧
    lookupA (closeTab (contentChange stateABC "draft!") 3).store 3 = none ∧
    lookupA (fireTimer (closeTab (contentChange stateABC "draft!") 3) 3).store 3 =
      some "draft!" ∧
    (fireTimer (closeTab (contentChange stateABC "draft!") 3) 3).contentWriteLog.head? =
      some (3, "draft!") := by
  refine ⟨by decide, by decide, by decide, by decide, by decide⟩

/-! ## Idempotence of `normalizeTabName` (claim C3)

The normalized shape: every whitespace character is a single ASCII space
and no two adjacent characters are both whitespace. -/

/-- The binary relation "not both whitespace" on adjacent characters. -/
def notBothWs (a b : Char) : Prop := ¬(isJsWs a = true ∧ isJsWs b = true)

/-- The invariant produced by `collapseWsAux`. -/
def wellSp (l : List Char) : Prop :=
  (∀ c ∈ l, isJsWs c = true → c = ' ') ∧ List.Chain' notBothWs l

theorem collapseWsAux_mem :
    ∀ (l : List Char) (b : Bool) (c : Char), c ∈ collapseWsAux b l →
      c ∈ l ∨ c = ' ' := by
  intro l
  induction l with
  | nil =>
    intro b c hc
    exact absurd hc (List.not_mem_nil c)
  | cons a rest ih =>
    intro b c hc
    unfold collapseWsAux at hc
    by_cases hw : isJsWs a = true
    · rw [if_pos hw] at hc
      cases b with
      | true =>
        rcases ih true c hc with h | h
        · exact Or.inl (List.mem_cons_of_mem a h)
        · exact Or.inr h
      | false =>
        rcases List.mem_cons.mp hc with rfl | hc'
        · exact Or.inr rfl
        · rcases ih true c hc' with h | h
          · exact Or.inl (List.mem_cons_of_mem a h)
          · exact Or.inr h
    · rw [if_neg hw] at hc
      rcases List.mem_cons.mp hc with rfl | hc'
      · exact Or.inl (List.mem_cons_self c rest)
      · rcases ih false c hc' with h | h
        · exact Or.inl (List.mem_cons_of_mem a h)
        · exact Or.inr h

theorem collapseWsAux_ws_eq_space :
    ∀ (l : List Char) (b : Bool) (c : Char), c ∈ collapseWsAux b l →
      isJsWs c = true → c = ' ' := by
  intro l
  induction l with
  | nil =>
    intro b c hc
    exact absurd hc (List.not_mem_nil c)
  | cons a rest ih =>
    intro b c hc hws
    unfold collapseWsAux at hc
    by_cases hw : isJsWs a = true
    · rw [if_pos hw] at hc
      cases b with
      | true => exact ih true c hc hws
      | false =>
        rcases List.mem_cons.mp hc with rfl | hc'
        · rfl
        · exact ih true c hc' hws
    · rw [if_neg hw] at hc
      rcases List.mem_cons.mp hc with rfl | hc'
      · exact absurd hws hw
      · exact ih false c hc' hws

theorem collapseWsAux_true_head :
    ∀ (l : List Char) (c : Char), (collapseWsAux true l).head? = some c →
      isJsWs c = false := by
  intro l
  induction l with
  | nil =>
    intro c hc
    simp [collapseWsAux] at hc
  | cons a rest ih =>
    intro c hc
    unfold collapseWsAux at hc
    by_cases hw : isJsWs a = true
    · rw [if_pos hw] at hc
      exact ih c hc
    · rw [if_neg hw] at hc
      obtain rfl : a = c := by simpa using hc
      exact Bool.eq_false_iff.mpr hw

theorem collapseWsAux_chain :
    ∀ (l : List Char) (b : Bool), List.Chain' notBothWs (collapseWsAux b l) := by
  intro l
  induction l with
  | nil =>
    intro b
    simp [collapseWsAux]
  | cons a rest ih =>
    intro b
    unfold collapseWsAux
    by_cases hw : isJsWs a = true
    · rw [if_pos hw]
      cases b with
      | true => exact ih true
      | false =>
        show List.Chain' notBothWs (' ' :: collapseWsAux true rest)
        rw [List.chain'_cons']
        refine ⟨?_, ih true⟩
        intro y hy hcontra
        have hyf := collapseWsAux_true_head rest y hy
        rw [hyf] at hcontra
        exact absurd hcontra.2 (by simp)
    · rw [if_neg hw]
      show List.Chain' notBothWs (a :: collapseWsAux false rest)
      rw [List.chain'_cons']
      refine ⟨?_, ih false⟩
      intro y hy hcontra
      exact hw hcontra.1

theorem collapseWsAux_wellSp (l : List Char) : wellSp (collapseWsAux false l) :=
  ⟨fun c hc hws => collapseWsAux_ws_eq_space l false c hc hws,
   collapseWsAux_chain l false⟩

/-- On a well-spaced list, collapsing is the identity (and likewise with the
"previous was whitespace" flag set, provided the head is not whitespace). -/
theorem collapseWsAux_fixed :
    ∀ l : List Char, wellSp l →
      collapseWsAux false l = l ∧
      ((∀ c, l.head? = some c → isJsWs c = false) → collapseWsAux true l = l) := by
  intro l
  induction l with
  | nil => exact fun _ => ⟨rfl, fun _ => rfl⟩
  | cons a rest ih =>
    intro ⟨hall, hchain⟩
    obtain ⟨hhead, hchain'⟩ := List.chain'_cons'.mp hchain
    have hrest : wellSp rest :=
      ⟨fun c hc hws => hall c (List.mem_cons_of_mem a hc) hws, hchain'⟩
    obtain ⟨ihf, iht⟩ := ih hrest
    constructor
    · unfold collapseWsAux
      by_cases hw : isJsWs a = true
      · rw [if_pos hw]
        have ha : a = ' ' := hall a (List.mem_cons_self a rest) hw
        show ' ' :: collapseWsAux true rest = a :: rest
        rw [ha]
        congr 1
        refine iht ?_
        intro c hc
        have := hhead c hc
        unfold notBothWs at this
        cases hws : isJsWs c with
        | false => rfl
        | true => exact absurd ⟨hw, hws⟩ this
      · rw [if_neg hw]
        show a :: collapseWsAux false rest = a :: rest
        rw [ihf]
    · intro hheadok
      unfold collapseWsAux
      have hw : isJsWs a = false := hheadok a rfl
      rw [if_neg (by simp [hw])]
      show a :: collapseWsAux false rest = a :: rest
      rw [ihf]

theorem wellSp_dropWhile (p : Char → Bool) {l : List Char} (h : wellSp l) :
    wellSp (l.dropWhile p) :=
  ⟨fun c hc hws => h.1 c ((List.dropWhile_suffix p).sublist.mem hc) hws,
   h.2.suffix (List.dropWhile_suffix p)⟩

theorem wellSp_reverse {l : List Char} (h : wellSp l) : wellSp l.reverse := by
  refine ⟨fun c hc hws => h.1 c (List.mem_reverse.mp hc) hws, ?_⟩
  rw [List.chain'_reverse]
  refine h.2.imp ?_
  intro a b hab hcontra
  exact hab ⟨hcontra.2, hcontra.1⟩

theorem wellSp_take (n : Nat) {l : List Char} (h : wellSp l) :
    wellSp (l.take n) :=
  ⟨fun c hc hws => h.1 c (List.mem_of_mem_take hc) hws,
   List.Chain'.prefix h.2 ( List.take_prefix n l)⟩

theorem wellSp_jsTrimList {l : List Char} (h : wellSp l) :
    wellSp (jsTrimList l) := by
  unfold jsTrimList
  exact wellSp_reverse (wellSp_dropWhile _ (wellSp_reverse (wellSp_dropWhile _ h)))

theorem jsTrimList_eq_rdropWhile (l : List Char) :
    jsTrimList l = List.rdropWhile isJsWs (l.dropWhile isJsWs) := rfl

theorem dropWhile_rdropWhile_dropWhile (p : Char → Bool) (l : List Char) :
    (List.rdropWhile p (l.dropWhile p)).dropWhile p =
      List.rdropWhile p (l.dropWhile p) := by
  rw [List.dropWhile_eq_self_iff]
  intro hl hp
  have hpre := List.rdropWhile_prefix p (l.dropWhile p)
  have hne : List.rdropWhile p (l.dropWhile p) ≠ [] := by
    intro hnil
    rw [hnil] at hl
    simp at hl
  have hhead : (List.rdropWhile p (l.dropWhile p)).head hne =
      (l.dropWhile p).head (by
        intro hnil
        exact hne (by simp [List.rdropWhile, hnil])) :=
    List.IsPrefix.head hpre hne
  have hget : (List.rdropWhile p (l.dropWhile p)).get ⟨0, hl⟩ =
      (List.rdropWhile p (l.dropWhile p)).head hne := by
    rw [List.get_mk_zero]
  rw [hget, hhead] at hp
  rw [List.head_dropWhile_not p] at hp
  cases hp

theorem jsTrimList_idem (l : List Char) :
    jsTrimList (jsTrimList l) = jsTrimList l := by
  rw [jsTrimList_eq_rdropWhile, jsTrimList_eq_rdropWhile,
    dropWhile_rdropWhile_dropWhile, List.rdropWhile_idempotent]

theorem jsTrimList_length_le (l : List Char) :
    (jsTrimList l).length ≤ l.length := by
  unfold jsTrimList
  rw [List.length_reverse]
  calc ((l.dropWhile isJsWs).reverse.dropWhile isJsWs).length
      ≤ (l.dropWhile isJsWs).reverse.length :=
        (List.dropWhile_suffix isJsWs).sublist.length_le
    _ = (l.dropWhile isJsWs).length := List.length_reverse _
    _ ≤ l.length := (List.dropWhile_suffix isJsWs).sublist.length_le

theorem mem_jsTrimList {l : List Char} {c : Char} (h : c ∈ jsTrimList l) :
    c ∈ l := by
  unfold jsTrimList at h
  rw [List.mem_reverse] at h
  have h2 := (List.dropWhile_suffix isJsWs).sublist.mem h
  rw [List.mem_reverse] at h2
  exact (List.dropWhile_suffix isJsWs).sublist.mem h2

/-- The list-level body of `normalizeTabName` (its `let`-chain, spelled
out). -/
def normList (l : List Char) : List Char :=
  if 120 < (jsTrimList (collapseWsAux false
      (l.filter (fun c => !(isStripped c))))).length
  then jsTrimList ((jsTrimList (collapseWsAux false
      (l.filter (fun c => !(isStripped c))))).take 120)
  else jsTrimList (collapseWsAux false (l.filter (fun c => !(isStripped c))))

theorem normalizeTabName_eq_normList (x : String) :
    normalizeTabName x = ⟨normList x.data⟩ := rfl

theorem mem_norm_core {l : List Char} {c : Char}
    (h : c ∈ jsTrimList (collapseWsAux false
      (l.filter (fun c => !(isStripped c))))) :
    isStripped c = false := by
  have h1 := mem_jsTrimList h
  rcases collapseWsAux_mem _ false c h1 with h2 | rfl
  · have := List.of_mem_filter h2
    simpa using this
  · decide

theorem normList_mem {l : List Char} {c : Char} (h : c ∈ normList l) :
    isStripped c = false := by
  unfold normList at h
  split at h
  · exact mem_norm_core (List.mem_of_mem_take (mem_jsTrimList h))
  · exact mem_norm_core h

theorem normList_wellSp (l : List Char) : wellSp (normList l) := by
  unfold normList
  split
  · exact wellSp_jsTrimList (wellSp_take 120
      (wellSp_jsTrimList (collapseWsAux_wellSp _)))
  · exact wellSp_jsTrimList (collapseWsAux_wellSp _)

theorem normList_trim_fixed (l : List Char) :
    jsTrimList (normList l) = normList l := by
  unfold normList
  split
  · exact jsTrimList_idem _
  · exact jsTrimList_idem _

theorem normList_length_le (l : List Char) : (normList l).length ≤ 120 := by
  unfold normList
  split
  · calc (jsTrimList ((jsTrimList (collapseWsAux false
          (l.filter (fun c => !(isStripped c))))).take 120)).length
        ≤ ((jsTrimList (collapseWsAux false
            (l.filter (fun c => !(isStripped c))))).take 120).length :=
          jsTrimList_length_le _
      _ ≤ 120 := List.length_take_le _ _
  · rename_i h
    omega

theorem normList_idem (l : List Char) : normList (normList l) = normList l := by
  conv_lhs => rw [normList]
  rw [List.filter_eq_self.mpr (fun c hc => by simp [normList_mem hc])]
  rw [(collapseWsAux_fixed (normList l) (normList_wellSp l)).1]
  rw [normList_trim_fixed]
  rw [if_neg (by
    have := normList_length_le l
    omega)]

/-- `normalizeTabName` is idempotent. -/
theorem normalizeTabName_idem (x : String) :
    normalizeTabName (normalizeTabName x) = normalizeTabName x := by
  show (⟨normList (normList x.data)⟩ : String) = ⟨normList x.data⟩
  rw [normList_idem]

/-! ## Normal form of `createTab` (claim C3) -/

/-- `createTab` on a quiescent state (no rename pending) whose uuid supply
is fresh: appends the normalized tab, seeds content storage (one logged
write), builds the model from the seeded content, and activates the new
tab. -/
theorem createTab_spec (s : EditorState) (n l v c : String)
    (hren : s.renameState = none)
    (hpend : s.pendingRenameId = none)
    (htabs : ∀ t ∈ s.tabs, t.id ≠ s.nextId)
    (hmod : lookupA s.models s.nextId = none) :
    createTab s n l v c =
      { s with
          tabs := s.tabs ++ [⟨s.nextId, normalizeTabName n, l, uriFor s.nextId,
            normalizeColor c, false⟩],
          activeTabId := s.nextId,
          models := insertA s.models s.nextId v,
          store := insertA s.store s.nextId v,
          contentWriteLog := (s.nextId, v) :: s.contentWriteLog,
          nextId := s.nextId + 1 } := by
  have hfind : (s.tabs ++ [(⟨s.nextId, normalizeTabName n, l, uriFor s.nextId,
        normalizeColor c, false⟩ : Tab)]).find? (fun t => t.id == s.nextId) =
      some ⟨s.nextId, normalizeTabName n, l, uriFor s.nextId,
        normalizeColor c, false⟩ := by
    rw [List.find?_append,
      List.find?_eq_none.mpr (fun t ht hp => htabs t ht (by simpa using hp))]
    simp
  unfold createTab
  rw [commitRename_none hren]
  simp only [freshId]
  unfold setActive
  dsimp only
  rw [hren]
  dsimp only
  unfold getTab
  dsimp only
  rw [hfind]
  dsimp only
  unfold ensureModel
  dsimp only
  rw [hmod, lookupA_insertA_self]
  dsimp only
  rw [hpend]
  rfl

theorem findIdx?_acc_append_singleton {α : Type} (p : α → Bool) (x : α)
    (hx : p x = true) :
    ∀ (l : List α) (i : Nat), (∀ a ∈ l, p a = false) →
      (l ++ [x]).findIdx? p i = some (i + l.length) := by
  intro l
  induction l with
  | nil => intro i _; simp [List.findIdx?_cons, hx]
  | cons a as ih =>
    intro i h
    rw [List.cons_append, List.findIdx?_cons, h a (List.mem_cons_self a as)]
    rw [if_neg (by simp)]
    rw [ih (i + 1) (fun b hb => h b (List.mem_cons_of_mem a hb))]
    congr 1
    simp
    omega

theorem findIdx?_append_singleton {α : Type} (p : α → Bool) (l : List α) (x : α)
    (h : ∀ a ∈ l, p a = false) (hx : p x = true) :
    (l ++ [x]).findIdx? p = some l.length := by
  have := findIdx?_acc_append_singleton p x hx l 0 h
  simpa using this

theorem eraseIdx_concat_length {α : Type} (l : List α) (x : α) :
    (l ++ [x]).eraseIdx l.length = l := by
  rw [List.eraseIdx_append_of_length_le (Nat.le_refl l.length)]
  simp

/-- `setActive` on a quiescent state (no rename in progress, none queued)
whose target id resolves: it just records the active id and, if the target
has no live model, rebuilds one from storage. -/
theorem setActive_quiet (s : EditorState) (id : Nat) (t : Tab)
    (hren : s.renameState = none) (hpend : s.pendingRenameId = none)
    (hget : getTab s id = some t) :
    setActive s (some id) =
      match lookupA s.models id with
      | some _ => { s with activeTabId := id }
      | none =>
        { s with
            activeTabId := id,
            models := insertA s.models id ((lookupA s.store id).getD defaultContent) } := by
  have hget2 : s.tabs.find? (fun tb => tb.id == id) = some t := hget
  have htid : t.id = id := by simpa using List.find?_some hget2
  unfold setActive
  dsimp only
  rw [hren]
  dsimp only
  have hget' : getTab { s with activeTabId := id } id = some t := hget
  rw [hget']
  dsimp only
  unfold ensureModel
  dsimp only
  rw [htid]
  cases hm : lookupA s.models id with
  | none =>
    dsimp only
    rw [hpend, if_neg (by simp), hren]
  | some v =>
    dsimp only
    rw [hpend, if_neg (by simp), hren]

/-- `removeHistoryByHid` only touches the persistent history list. -/
theorem removeHistoryByHid_fields (s : EditorState) (hid : Nat) :
    ∃ h, removeHistoryByHid s hid = { s with closedHistory := h } := by
  unfold removeHistoryByHid
  cases s.closedHistory.findIdx? (fun r => r.hid == hid) with
  | none => exact ⟨s.closedHistory, rfl⟩
  | some idx => exact ⟨_, rfl⟩

theorem setActive_quiet_hit (s : EditorState) (id : Nat) (t : Tab) (v : String)
    (hren : s.renameState = none) (hpend : s.pendingRenameId = none)
    (hget : getTab s id = some t) (hm : lookupA s.models id = some v) :
    setActive s (some id) = { s with activeTabId := id } := by
  rw [setActive_quiet s id t hren hpend hget, hm]

theorem setActive_quiet_miss (s : EditorState) (id : Nat) (t : Tab)
    (hren : s.renameState = none) (hpend : s.pendingRenameId = none)
    (hget : getTab s id = some t) (hm : lookupA s.models id = none) :
    setActive s (some id) =
      { s with
          activeTabId := id,
          models := insertA s.models id ((lookupA s.store id).getD defaultContent) } := by
  rw [setActive_quiet s id t hren hpend hget, hm]

/-- Stage 3 of the round trip: reopening when the top of the closed-tab
stack is the just-closed tab `ct` with saved content `content`.  The entry
is popped and re-created as a brand-new tab: the name and color survive
re-normalization unchanged, the language and content are restored, and the
new id (two uuids past `ct.id`) differs from the original. -/
theorem reopen_after_close_spec (s₂ s : EditorState) (ct : Tab)
    (name lang content : String)
    (hct : ct = ⟨s.nextId, normalizeTabName name, lang, uriFor s.nextId,
      normalizeColor DEFAULT_TAG_COLOR, false⟩)
    (hrn2 : s₂.renameState = none)
    (hpd2 : s₂.pendingRenameId = none)
    (hn2 : s₂.nextId = s.nextId + 2)
    (hcs2 : s₂.closedStack = s.closedStack ++
      [⟨some ct, some content, s.nextId + 1, s.now⟩])
    (htb2 : s₂.tabs = s.tabs)
    (hmd2 : lookupA s₂.models (s.nextId + 2) = none)
    (htabs : ∀ t ∈ s.tabs, t.id < s.nextId) :
    ∃ nt : Tab,
      (reopenClosedTab s₂).tabs.getLast? = some nt ∧
      (reopenClosedTab s₂).activeTabId = nt.id ∧
      nt.name = ct.name ∧
      nt.language = ct.language ∧
      nt.color = ct.color ∧
      lookupA (reopenClosedTab s₂).store nt.id = some content ∧
      lookupA (reopenClosedTab s₂).models nt.id = some content ∧
      nt.id ≠ ct.id := by
  subst hct
  obtain ⟨hh, hrm⟩ := removeHistoryByHid_fields
    { s₂ with closedStack := s.closedStack } (s.nextId + 1)
  have hro : reopenClosedTab s₂ =
      createTab { s₂ with closedStack := s.closedStack, closedHistory := hh }
        (normalizeTabName name) lang content (normalizeColor DEFAULT_TAG_COLOR) := by
    unfold reopenClosedTab
    rw [commitRename_none hrn2]
    dsimp only
    rw [hcs2]
    rw [List.getLast?_concat]
    dsimp only
    rw [List.dropLast_concat]
    rw [hrm]
    rfl
  have hcr2 := createTab_spec
    { s₂ with closedStack := s.closedStack, closedHistory := hh }
    (normalizeTabName name) lang content (normalizeColor DEFAULT_TAG_COLOR)
    hrn2 hpd2
    (by intro t ht
        have ht2 : t ∈ s₂.tabs := ht
        rw [htb2] at ht2
        have h6 := htabs t ht2
        have h7 : ({ s₂ with closedStack := s.closedStack, closedHistory := hh } : EditorState).nextId = s.nextId + 2 := hn2
        rw [h7]
        omega)
    (by have h7 : ({ s₂ with closedStack := s.closedStack, closedHistory := hh } : EditorState).nextId = s.nextId + 2 := hn2
        rw [h7]
        exact hmd2)
  rw [hro, hcr2]
  refine ⟨_, List.getLast?_concat _, rfl, ?_, rfl, ?_, ?_, ?_, ?_⟩
  · exact normalizeTabName_idem name
  · exact normalizeColor_idem DEFAULT_TAG_COLOR
  · exact lookupA_insertA_self _ _ _
  · exact lookupA_insertA_self _ _ _
  · have h7 : ({ s₂ with closedStack := s.closedStack, closedHistory := hh } : EditorState).nextId = s.nextId + 2 := hn2
    show ({ s₂ with closedStack := s.closedStack, closedHistory := hh } : EditorState).nextId ≠ s.nextId
    rw [h7]
    omega

/-! ## Claim C3 -/

/-- **C3.** For every name, language and content, `createTab(name, language,
content)` followed by `closeTab` of the created tab followed by
`reopenClosedTab()` yields a tab (appended last and made active) whose name,
language and color equal those of the closed tab `ct`, whose saved content
is restored to storage and buffer, and whose id differs from `ct.id`.  The
hypotheses say the starting state is quiescent (no inline rename active or
queued), its registry is non-empty, and all tab/buffer ids predate the uuid
supply — all invariants of reachable states. -/
theorem claim_C3_roundtrip (s : EditorState) (name lang content : String)
    (hren : s.renameState = none)
    (hpend : s.pendingRenameId = none)
    (htabs : ∀ t ∈ s.tabs, t.id < s.nextId)
    (hmods : ∀ p ∈ s.models, p.1 < s.nextId)
    (hlen : 1 ≤ s.tabs.length) :
    ∃ ct nt : Tab,
      getTab (createTab s name lang content DEFAULT_TAG_COLOR) s.nextId = some ct ∧
      ct.name = normalizeTabName name ∧
      ct.language = lang ∧
      (reopenClosedTab (closeTab (createTab s name lang content DEFAULT_TAG_COLOR)
        s.nextId)).tabs.getLast? = some nt ∧
      (reopenClosedTab (closeTab (createTab s name lang content DEFAULT_TAG_COLOR)
        s.nextId)).activeTabId = nt.id ∧
      nt.name = ct.name ∧
      nt.language = ct.language ∧
      nt.color = ct.color ∧
      lookupA (reopenClosedTab (closeTab (createTab s name lang content DEFAULT_TAG_COLOR)
        s.nextId)).store nt.id = some content ∧
      lookupA (reopenClosedTab (closeTab (createTab s name lang content DEFAULT_TAG_COLOR)
        s.nextId)).models nt.id = some content ∧
      nt.id ≠ ct.id := by
  have hceq := createTab_spec s name lang content DEFAULT_TAG_COLOR hren hpend
    (fun t ht => Nat.ne_of_lt (htabs t ht))
    (lookupA_eq_none_of_forall _ _ (fun p hp => Nat.ne_of_lt (hmods p hp)))
  set ctv : Tab := ⟨s.nextId, normalizeTabName name, lang, uriFor s.nextId,
    normalizeColor DEFAULT_TAG_COLOR, false⟩ with hctv
  -- the last tab of the original registry, which closeTab will activate
  have hne : s.tabs ≠ [] := List.ne_nil_of_length_pos (by omega)
  obtain ⟨lt, hglt⟩ : ∃ x, s.tabs.getLast? = some x := by
    cases hg : s.tabs.getLast? with
    | some x => exact ⟨x, rfl⟩
    | none => exact absurd (List.getLast?_eq_none_iff.mp hg) hne
  have hltmem : lt ∈ s.tabs := List.mem_of_getLast?_eq_some hglt
  have hltlt : lt.id < s.nextId := htabs lt hltmem
  set S1 : EditorState := { s with
    tabs := s.tabs ++ [ctv],
    activeTabId := s.nextId,
    models := insertA s.models s.nextId content,
    store := insertA s.store s.nextId content,
    contentWriteLog := (s.nextId, content) :: s.contentWriteLog,
    nextId := s.nextId + 1 } with hS1
  set S2 : EditorState := { s with
    activeTabId := s.nextId,
    models := eraseA s.models s.nextId,
    store := eraseA s.store s.nextId,
    closedStack := s.closedStack ++ [⟨some ctv, some content, s.nextId + 1, s.now⟩],
    closedHistory := (mkHistRecN s.now ⟨some ctv, some content, s.nextId + 1, s.now⟩ ::
      s.closedHistory).take MAX_HISTORY,
    nextId := s.nextId + 2,
    contentWriteLog := (s.nextId, content) :: s.contentWriteLog } with hS2
  have hget1 : getTab S1 s.nextId = some ctv := by
    show (s.tabs ++ [ctv]).find? (fun tb => tb.id == s.nextId) = some ctv
    rw [List.find?_append, List.find?_eq_none.mpr
      (fun t ht hp => Nat.ne_of_lt (htabs t ht) (by simpa using hp))]
    rw [hctv]
    simp
  have hf1 : (s.tabs ++ [ctv]).findIdx? (fun tb => tb.id == s.nextId) =
      some s.tabs.length :=
    findIdx?_append_singleton _ _ _
      (fun t ht => by simpa using Nat.ne_of_lt (htabs t ht))
      (by rw [hctv]; simp)
  have hs2 : closeTab S1 s.nextId = setActive S2 (some lt.id) := by
    rw [closeTab_multi S1 s.nextId s.tabs.length ctv hren
      (by show (s.tabs ++ [ctv]).length ≠ 1
          rw [List.length_append]
          show s.tabs.length + 1 ≠ 1
          omega)
      hf1 hget1]
    dsimp only
    rw [lookupA_insertA_self]
    dsimp only
    rw [eraseA_insertA_self, eraseA_insertA_self, eraseIdx_concat_length,
      if_pos rfl,
      List.getElem?_eq_none (Nat.le_refl s.tabs.length)]
    dsimp only
    rw [show s.tabs[s.tabs.length - 1]? = some lt from by
      rw [← List.getLast?_eq_getElem?]; exact hglt]
  rw [show createTab s name lang content DEFAULT_TAG_COLOR = S1 from hceq, hs2]
  have hget2 : ∃ t', getTab S2 lt.id = some t' := by
    have hsome : (s.tabs.find? (fun tb => tb.id == lt.id)).isSome := by
      rw [List.find?_isSome]
      exact ⟨lt, hltmem, by simp⟩
    obtain ⟨t', ht'⟩ := Option.isSome_iff_exists.mp hsome
    exact ⟨t', ht'⟩
  obtain ⟨t', hget2'⟩ := hget2
  cases hm : lookupA S2.models lt.id with
  | some v =>
    rw [setActive_quiet_hit S2 lt.id t' v hren hpend hget2' hm]
    obtain ⟨nt, h1, h2, h3, h4, h5, h6, h7, h8⟩ :=
      reopen_after_close_spec { S2 with activeTabId := lt.id } s ctv name lang content
        hctv hren hpend rfl rfl rfl
        (by show lookupA (eraseA s.models s.nextId) (s.nextId + 2) = none
            rw [lookupA_eraseA_ne _ _ _ (by omega)]
            exact lookupA_eq_none_of_forall _ _ (fun p hp => by
              have := hmods p hp; omega))
        htabs
    exact ⟨ctv, nt, hget1, rfl, rfl, h1, h2, h3, h4, h5, h6, h7, h8⟩
  | none =>
    rw [setActive_quiet_miss S2 lt.id t' hren hpend hget2' hm]
    obtain ⟨nt, h1, h2, h3, h4, h5, h6, h7, h8⟩ :=
      reopen_after_close_spec
        { S2 with
            activeTabId := lt.id,
            models := insertA S2.models lt.id ((lookupA S2.store lt.id).getD defaultContent) }
        s ctv name lang content
        hctv hren hpend rfl rfl rfl
        (by show lookupA (insertA S2.models lt.id
              ((lookupA S2.store lt.id).getD defaultContent)) (s.nextId + 2) = none
            rw [lookupA_insertA_ne _ _ _ _ (by omega)]
            show lookupA (eraseA s.models s.nextId) (s.nextId + 2) = none
            rw [lookupA_eraseA_ne _ _ _ (by omega)]
            exact lookupA_eq_none_of_forall _ _ (fun p hp => by
              have := hmods p hp; omega))
        htabs
    exact ⟨ctv, nt, hget1, rfl, rfl, h1, h2, h3, h4, h5, h6, h7, h8⟩

def stateC3 : EditorState :=
  { tabs := [⟨0, "A", "markdown", uriFor 0, DEFAULT_TAG_COLOR, false⟩],
    activeTabId := 0,
    models := [(0, "hello")],
    store := [(0, "hello")],
    closedStack := [],
    closedHistory := [],
    saveTimeouts := [],
    renameState := none,
    pendingRenameId := none,
    editorLanguage := some "markdown",
    nextId := 1,
    now := 1000,
    contentWriteLog := [] }

/-- Witness for C3: the round trip on a concrete one-tab session with
`createTab("Notes", "markdown", "# hi")`. -/
theorem claim_C3_witness :
    (stateC3.renameState = none ∧ stateC3.pendingRenameId = none ∧
      (∀ t ∈ stateC3.tabs, t.id < stateC3.nextId) ∧
      (∀ p ∈ stateC3.models, p.1 < stateC3.nextId) ∧
      1 ≤ stateC3.tabs.length) ∧
    ∃ ct nt : Tab,
      getTab (createTab stateC3 "Notes" "markdown" "# hi" DEFAULT_TAG_COLOR)
        stateC3.nextId = some ct ∧
      ct.name = normalizeTabName "Notes" ∧
      ct.language = "markdown" ∧
      (reopenClosedTab (closeTab (createTab stateC3 "Notes" "markdown" "# hi" DEFAULT_TAG_COLOR)
        stateC3.nextId)).tabs.getLast? = some nt ∧
      (reopenClosedTab (closeTab (createTab stateC3 "Notes" "markdown" "# hi" DEFAULT_TAG_COLOR)
        stateC3.nextId)).activeTabId = nt.id ∧
      nt.name = ct.name ∧
      nt.language = ct.language ∧
      nt.color = ct.color ∧
      lookupA (reopenClosedTab (closeTab (createTab stateC3 "Notes" "markdown" "# hi" DEFAULT_TAG_COLOR)
        stateC3.nextId)).store nt.id = some "# hi" ∧
      lookupA (reopenClosedTab (closeTab (createTab stateC3 "Notes" "markdown" "# hi" DEFAULT_TAG_COLOR)
        stateC3.nextId)).models nt.id = some "# hi" ∧
      nt.id ≠ ct.id :=
  ⟨⟨rfl, rfl, by decide, by decide, by decide⟩,
    claim_C3_roundtrip stateC3 "Notes" "markdown" "# hi" rfl rfl
      (by decide) (by decide) (by decide)⟩

end MonacoTabs
